import Mathlib

/-!
Shallow embedding of the bin/buddy allocator of
`cs140e/os/kernel/src/allocator/bin.rs` (struct `Allocator`, functions
`new`, `alloc`/`_alloc`, `dealloc`/`_dealloc`).

Machine integers (`usize`, 64-bit) are modelled as `Nat`, with wrapping
written out explicitly (`% 2 ^ 64`) at the operations where the Rust
program can overflow.  Rust distinguishes two behaviours on arithmetic
overflow: with overflow checks (debug builds) the program aborts, without
them (release builds) shift amounts are masked to the bit width,
`next_power_of_two` returns 0, and additions wrap.  Both behaviours are
defined, so the region initializer is embedded once, parameterised by a
`dbg` flag: `Allocator.new` is the release-semantics run and
`Allocator.newChecked` the overflow-checked run, which reports each abort
point as an `InitFault`.  A run that would loop forever (step size 0 after
a masked overflow) or wrap the cursor is reported as a fault as well.

The recursions of `_alloc` and `_dealloc` increase the size class `sz`
and stop no later than `sz = 35` (the `bin_index >= 32` test), so they
are written with an explicit structural counter `gas`; every entry point
passes `gas = 35 - sz`, which makes the counter's base case coincide
exactly with the `bin_index >= 32` exit of the source.

The intrusive linked list used for the bins lives in
`allocator/linked_list.rs`, which is not among the provided sources; its
operations are modelled from the spec (section 4.1) as plain `List Nat`
operations: `push` inserts at the head, iteration visits the head first,
and removal takes out the first matching node.
-/

instance {ε α : Type} [DecidableEq ε] [DecidableEq α] : DecidableEq (Except ε α)
  | .ok a, .ok b =>
    if h : a = b then .isTrue (by rw [h]) else .isFalse (by simp [h])
  | .ok _, .error _ => .isFalse (by simp)
  | .error _, .ok _ => .isFalse (by simp)
  | .error a, .error b =>
    if h : a = b then .isTrue (by rw [h]) else .isFalse (by simp [h])

/-- Count trailing zero bits by halving; `fuel ≥ n` suffices for a
positive `n`. -/
def tzRun : Nat → Nat → Nat
  | 0, _ => 0
  | fuel + 1, n => if n % 2 = 1 then 0 else tzRun fuel (n / 2) + 1

/-- Number of trailing zero bits of `n`.  `usize::trailing_zeros` returns
the bit width, 64, on input 0. -/
def trailingZeros (n : Nat) : Nat :=
  if n = 0 then 64 else tzRun n n

/-- Floor base-2 logarithm by halving; `fuel ≥ n` suffices. -/
def log2Run : Nat → Nat → Nat
  | 0, _ => 0
  | fuel + 1, n => if n ≤ 1 then 0 else log2Run fuel (n / 2) + 1

/-- Floor base-2 logarithm (0 for inputs 0 and 1). -/
def log2floor (n : Nat) : Nat := log2Run n n

/-- `usize::next_power_of_two`: the least power of two that is `≥ n`
(1 for `n ≤ 1`).  The overflowing case `n > 2 ^ 63` is handled at each
call site, mirroring the build-dependent behaviour. -/
def nextPow2 (n : Nat) : Nat :=
  if n ≤ 1 then 1 else 2 ^ (log2floor (n - 1) + 1)

/-- `usize::is_power_of_two`. -/
def isPow2 (n : Nat) : Bool :=
  n != 0 && n == 2 ^ log2floor n

/-- `2 ^ 64`, the number of `usize` values. -/
def U64 : Nat := 2 ^ 64

/-- The allocator state: the `bins: [LinkedList; 32]` array, as a list of
32 lists of addresses.  All constructors below only ever write indices
`< 32`, so the length stays 32. -/
structure Allocator where
  bins : List (List Nat)
deriving DecidableEq

/-- Read bin `i` (`self.bins[i]`). -/
def getBin (a : Allocator) (i : Nat) : List Nat := a.bins.getD i []

/-- Replace bin `i`. -/
def setBin (a : Allocator) (i : Nat) (l : List Nat) : Allocator :=
  ⟨a.bins.set i l⟩

/-- Modelled from the spec: `LinkedList::push` of `allocator/linked_list.rs`
(not among the provided sources) inserts the address at the head of the
intrusive list (spec 4.1, LIFO). -/
def pushBin (a : Allocator) (i : Nat) (x : Nat) : Allocator :=
  setBin a i (x :: getBin a i)

/-- Modelled from the spec: scanning a bin with `iter_mut` and calling
`node.pop()` on the first node whose address is a multiple of `al`
removes that node and returns its address (spec 4.1 find-and-remove;
iteration starts at the most recently pushed node).  The alignment test
is the source's `(addr / align) * align == addr`. -/
def removeFirstAligned (al : Nat) : List Nat → Option (Nat × List Nat)
  | [] => none
  | x :: rest =>
    if x / al * al = x then some (x, rest)
    else
      match removeFirstAligned al rest with
      | some (y, l) => some (y, x :: l)
      | none => none

/-- Modelled from the spec: scanning a bin for the node whose address
equals `v` and removing it (the buddy search of `_dealloc`). -/
def removeFirstEq (v : Nat) : List Nat → Option (List Nat)
  | [] => none
  | x :: rest =>
    if x = v then some rest
    else
      match removeFirstEq v rest with
      | some l => some (x :: l)
      | none => none

/-- The ways the region initializer can fail to complete normally.
`shiftOverflow`, `npotOverflow` and `addOverflow` are the overflow aborts
of a checked build (`1 << start.trailing_zeros()` with a zero `start`,
`next_power_of_two` on a value above `2 ^ 63`, and the cursor addition).
`indexOverflow` is the bounds-check abort of `bins[sz.trailing_zeros() - 3]`
(present in every build).  `wouldHang` marks a state where the computed
block size is 0, so the real loop would never terminate, and `fuelOut`
marks a cursor wrap-around that defeats the termination measure. -/
inductive InitFault where
  | shiftOverflow
  | npotOverflow
  | addOverflow
  | indexOverflow
  | wouldHang
  | fuelOut
deriving DecidableEq

/-- The loop of `Allocator::new` (bin.rs lines 21–31):

    while start < end {
        let sz = min(1 << start.trailing_zeros(),
                    (end - start).next_power_of_two() << 1);
        if sz >= 1 << 3 {
            bins[sz.trailing_zeros() as usize - 3].push(start as *mut usize);
        }
        start += sz;
    }

`fuel` bounds the number of iterations; `e - c` suffices whenever the
cursor never wraps, since every iteration advances it by `sz ≥ 1`. -/
def initLoop (dbg : Bool) : Nat → Nat → Nat → Allocator → Except InitFault Allocator
  | 0, c, e, a => if c < e then .error .fuelOut else .ok a
  | fuel + 1, c, e, a =>
    if c < e then
      if dbg ∧ c = 0 then .error .shiftOverflow
      else
        -- release: `1 << 64` masks the shift amount to 0
        let arm1 : Nat := if c = 0 then 1 else 2 ^ trailingZeros c
        if dbg ∧ 2 ^ 63 < e - c then .error .npotOverflow
        else
          -- release: overflowing `next_power_of_two` returns 0
          let raw : Nat := if 2 ^ 63 < e - c then 0 else nextPow2 (e - c)
          -- `<< 1` discards bits above the width in every build
          let arm2 : Nat := raw * 2 % U64
          let sz := min arm1 arm2
          if sz = 0 then .error .wouldHang
          else
            if 8 ≤ sz ∧ 32 ≤ trailingZeros sz - 3 then .error .indexOverflow
            else
              let a' := if 8 ≤ sz then pushBin a (trailingZeros sz - 3) c else a
              if dbg ∧ U64 ≤ c + sz then .error .addOverflow
              else initLoop dbg fuel ((c + sz) % U64) e a'
    else .ok a

/-- `Allocator::new(start, end)` under release semantics (wrapping
arithmetic). -/
def Allocator.new (s e : Nat) : Except InitFault Allocator :=
  initLoop false (e - s) s e ⟨List.replicate 32 []⟩

/-- `Allocator::new(start, end)` under overflow-checked (debug) semantics:
any arithmetic overflow aborts construction. -/
def Allocator.newChecked (s e : Nat) : Except InitFault Allocator :=
  initLoop true (e - s) s e ⟨List.replicate 32 []⟩

/-- The two error values of `AllocErr` that `alloc` can produce. -/
inductive AllocErr where
  | unsupported
  | exhausted
deriving DecidableEq

/-- `layout.size().next_power_of_two().trailing_zeros()` (bin.rs lines 63
and 102), the size-class exponent of a request, under release semantics
(an overflowing `next_power_of_two` yields 0, whose `trailing_zeros` is
64). -/
def szBits (size : Nat) : Nat :=
  if 2 ^ 63 < size then 64 else trailingZeros (nextPow2 size)

/-- `Allocator::_alloc` (bin.rs lines 67–86).  Returns the result together
with the state after the call; on an error the bins are untouched.

    fn _alloc(&mut self, sz: usize, align: usize, ...) {
        let bin_index = sz.saturating_sub(3);
        if bin_index >= 32 { return Err(Exhausted) }
        for node in self.bins[bin_index].iter_mut() {
            let addr = node.value() as usize;
            if (addr / align) * align == addr { return Ok(node.pop()) }
        }
        let new_node = Self::_alloc(self, sz + 1, align, layout)?;
        self.bins[bin_index].push(new_node.add(1 << sz));
        Ok(new_node)
    }

`Nat` subtraction is the `saturating_sub`.  Every entry passes
`gas = 35 - sz`, so `gas = 0` forces `sz ≥ 35`, where the source also
returns `Exhausted` with the bins untouched. -/
def allocRec : Nat → Allocator → Nat → Nat → Except AllocErr Nat × Allocator
  | 0, a, _, _ => (.error .exhausted, a)
  | gas + 1, a, sz, al =>
    if 32 ≤ sz - 3 then (.error .exhausted, a)
    else
      match removeFirstAligned al (getBin a (sz - 3)) with
      | some (addr, rest) => (.ok addr, setBin a (sz - 3) rest)
      | none =>
        match allocRec gas a (sz + 1) al with
        | (.ok p, a1) => (.ok p, pushBin a1 (sz - 3) (p + 2 ^ sz))
        | (.error err, a1) => (.error err, a1)

/-- `Allocator::alloc` (bin.rs lines 56–65): the alignment is rejected
when it is not a power of two (which includes 0); the dead second branch
`layout.align() <= 0` is kept for fidelity.  The size is not validated. -/
def Allocator.alloc (a : Allocator) (size al : Nat) :
    Except AllocErr Nat × Allocator :=
  if ¬ isPow2 al then (.error .unsupported, a)
  else if al = 0 then (.error .unsupported, a)
  else allocRec (35 - szBits size) a (szBits size) al

/-- `Allocator::_dealloc` (bin.rs lines 107–137).  `none` models the
abort of `self.bins[sz - 3].push(ptr)` when `sz < 3`: the `usize`
subtraction wraps to at least `2 ^ 64 - 3` and the bin array access
fails its bounds check in every build.

    fn _dealloc(&mut self, ptr: *mut u8, sz: usize) {
        let buddy_addr = my_addr ^ (1 << sz);
        let bin_index = sz.saturating_sub(3);
        if bin_index >= 32 { return; }
        for node in ... { if node_addr == buddy_addr { node.pop(); ... } }
        match buddy {
            Some(node_addr) =>
                Self::_dealloc(self, min(my_addr, node_addr), sz + 1),
            None => self.bins[sz - 3].push(ptr),
        }
    }

The shift amount of `1 << sz` is masked at 64 (release semantics); the
value is unused whenever `sz ≥ 35` because the function returns first.
`gas = 35 - sz` at every entry, so `gas = 0` forces `sz ≥ 35`, where the
source also returns with the bins untouched. -/
def deallocRec : Nat → Allocator → Nat → Nat → Option Allocator
  | 0, a, _, _ => some a
  | gas + 1, a, ptr, sz =>
    let buddy := ptr ^^^ 2 ^ (sz % 64)
    if 32 ≤ sz - 3 then some a
    else
      match removeFirstEq buddy (getBin a (sz - 3)) with
      | some rest => deallocRec gas (setBin a (sz - 3) rest) (min ptr buddy) (sz + 1)
      | none => if sz < 3 then none else some (pushBin a (sz - 3) ptr)

/-- `Allocator::dealloc` (bin.rs lines 101–105).  The layout's alignment
is accepted but never read. -/
def Allocator.dealloc (a : Allocator) (ptr size al : Nat) : Option Allocator :=
  deallocRec (35 - szBits size) a ptr (szBits size)

/-- Call depth of `_alloc` counted in frames (the recursion passes the
same, still unmodified, state down, so the scans of the failing frames
all read the bins of the entry state). -/
def allocRecDepth : Nat → Allocator → Nat → Nat → Nat
  | 0, _, _, _ => 1
  | gas + 1, a, sz, al =>
    if 32 ≤ sz - 3 then 1
    else
      match removeFirstAligned al (getBin a (sz - 3)) with
      | some _ => 1
      | none => 1 + allocRecDepth gas a (sz + 1) al

/-- Call depth of `_dealloc` in frames. -/
def deallocRecDepth : Nat → Allocator → Nat → Nat → Nat
  | 0, _, _, _ => 1
  | gas + 1, a, ptr, sz =>
    let buddy := ptr ^^^ 2 ^ (sz % 64)
    if 32 ≤ sz - 3 then 1
    else
      match removeFirstEq buddy (getBin a (sz - 3)) with
      | some rest =>
        1 + deallocRecDepth gas (setBin a (sz - 3) rest) (min ptr buddy) (sz + 1)
      | none => 1

/-- Total units covered by the blocks held in a tail of the bin array
whose first bin holds blocks of `2 ^ k` units. -/
def sumAux : Nat → List (List Nat) → Nat
  | _, [] => 0
  | k, b :: rest => b.length * 2 ^ k + sumAux (k + 1) rest

/-- Total number of units covered by the blocks held in the bins (a bin
`i` entry stands for a block of `2 ^ (i + 3)` units). -/
def sumSizes (a : Allocator) : Nat := sumAux 3 a.bins

/-- The buddy invariant of spec section 3, item 1: no bin holds two
addresses that differ exactly in the bit of the bin's block size. -/
def XorInv (a : Allocator) : Prop :=
  ∀ i < 32, ∀ x ∈ getBin a i, (x ^^^ 2 ^ (i + 3)) ∉ getBin a i

instance : DecidablePred XorInv := by
  intro a
  unfold XorInv
  infer_instance

/-- States reachable from a constructed allocator by calls that respect
the documented contracts.  `out` is the ghost list of outstanding
allocations (address, requested size): a deallocation is valid only for
an outstanding pair, with the original size (spec sections 4.4 and 6).
The bound `e ≤ 2 ^ 63` keeps the region inside the addressable space.
A deallocation that would abort (`none`) has no successor state. -/
inductive Reachable : Allocator → List (Nat × Nat) → Prop where
  | init : ∀ s e a, e ≤ 2 ^ 63 → Allocator.new s e = .ok a → Reachable a []
  | allocOk : ∀ a out size al p a', Reachable a out → 0 < size →
      isPow2 al = true → Allocator.alloc a size al = (.ok p, a') →
      Reachable a' ((p, size) :: out)
  | allocErr : ∀ a out size al err a', Reachable a out →
      Allocator.alloc a size al = (.error err, a') → Reachable a' out
  | deallocOk : ∀ a out p size al a', Reachable a out → (p, size) ∈ out →
      Allocator.dealloc a p size al = some a' →
      Reachable a' (out.erase (p, size))

/-! ### Helpers for concrete states and basic facts about the engines -/

/-- Build an allocator from the nonempty bins. -/
def mkBins (l : List (Nat × List Nat)) : Allocator :=
  ⟨l.foldl (fun b p => b.set p.1 p.2) (List.replicate 32 [])⟩

/-- `_alloc` reports `Exhausted` as its only error and leaves the bins
untouched when it fails. -/
lemma allocRec_error (gas : Nat) :
    ∀ (a : Allocator) (sz al : Nat) (err : AllocErr) (a1 : Allocator),
      allocRec gas a sz al = (.error err, a1) →
      err = .exhausted ∧ a1 = a := by
  induction gas with
  | zero =>
    intro a sz al err a1 h
    rw [allocRec] at h
    simp only [Prod.mk.injEq, Except.error.injEq] at h
    exact ⟨h.1.symm, h.2.symm⟩
  | succ gas ih =>
    intro a sz al err a1 h
    rw [allocRec] at h
    split at h
    · simp only [Prod.mk.injEq, Except.error.injEq] at h
      exact ⟨h.1.symm, h.2.symm⟩
    · split at h
      · simp at h
      · rcases hrec : allocRec gas a (sz + 1) al with ⟨r, a2⟩
        rw [hrec] at h
        cases r with
        | ok p => simp at h
        | error err2 =>
          simp only [Prod.mk.injEq, Except.error.injEq] at h
          obtain ⟨h1, h2⟩ := ih a (sz + 1) al err2 a2 hrec
          exact ⟨h.1.symm ▸ h1, h.2.symm ▸ h2⟩

/-- A sequence of deallocations with layout `(8, 8)`. -/
def deallocSeq (a : Allocator) (l : List Nat) : Option Allocator :=
  l.foldlM (fun st p => Allocator.dealloc st p 8 8) a

/-! ### Claim C1: initializer coverage -/

/-- The coverage property claim C1 states for a region `[s, e)`: the sum
of the sizes of the inserted blocks equals `e - s` minus a dropped
remainder of at most 7 units. -/
def CoverageClaim (s e : Nat) : Prop :=
  ∀ a, Allocator.new s e = .ok a →
    (e - s) - sumSizes a ≤ 7 ∧ sumSizes a ≤ e - s

/-- C1 counterexample: on the region `[1, 9)` the initializer inserts no
block at all (it drops fragments of sizes 1, 2 and 4 while aligning the
cursor, and a final fragment of size 2), so the uncovered remainder is 8,
exceeding the claimed bound 7. -/
theorem C1_coverage_counterexample : ¬ CoverageClaim 1 9 := by
  intro h
  have hc := h ⟨List.replicate 32 []⟩ (by decide)
  revert hc
  decide

/-! ### Claim C2: inserted blocks stay inside the region -/

/-- Claim C2 for a region `[s, e)`: every block the initializer inserts
lies entirely within the region. -/
def InsideRegionClaim (s e : Nat) : Prop :=
  ∀ a, Allocator.new s e = .ok a →
    ∀ i < 32, ∀ x ∈ getBin a i, s ≤ x ∧ x + 2 ^ (i + 3) ≤ e

/-- C2 counterexample: on the region `[8, 11)` the block-size bound
`(end - start).next_power_of_two() << 1 = 8` exceeds the remaining
3 units, so the initializer inserts the block `[8, 16)`, which extends
5 units past the end of the region. -/
theorem C2_inside_region_counterexample : ¬ InsideRegionClaim 8 11 := by
  intro h
  have hc := (h (mkBins [(0, [8])]) (by decide) 0 (by omega) 8 (by decide)).2
  norm_num at hc

/-! ### Claim C3: deallocation of a sub-minimum size class -/

/-- C3: deallocating with size 4 (size class `k = 2 < 3`) and no free
buddy reaches `self.bins[sz - 3].push(ptr)`, where the `usize`
subtraction `2 - 3` wraps and the bin array access aborts on its bounds
check, modelled by `none` — the code's own comment (line 111) says bin 0
should be used, but only the buddy-scan index is saturated, not the push
index. -/
theorem C3_dealloc_small_aborts :
    ∃ a, Allocator.new 64 128 = .ok a ∧ Allocator.dealloc a 0 4 1 = none :=
  ⟨mkBins [(3, [64])], by decide, by decide⟩

/-! ### Claim C4: when `alloc` reports `Unsupported` -/

/-- Claim C4: `alloc` returns `Unsupported` exactly for a zero or
non-power-of-two alignment or a zero size, and such calls leave the bins
unchanged. -/
def UnsupportedIffClaim : Prop :=
  ∀ a size al,
    ((Allocator.alloc a size al).1 = .error .unsupported ↔
      (al = 0 ∨ isPow2 al = false ∨ size = 0)) ∧
    ((al = 0 ∨ isPow2 al = false ∨ size = 0) →
      (Allocator.alloc a size al).2 = a)

/-- C4 counterexample: a zero size is not rejected.  On the allocator
over `[64, 128)`, `alloc(size = 0, align = 8)` rounds the size up to 1,
walks the empty small bins and splits the 64-unit block: it returns
address 64 instead of `Unsupported`. -/
theorem C4_unsupported_counterexample : ¬ UnsupportedIffClaim := by
  intro h
  have hc := ((h (mkBins [(3, [64])]) 0 8).1).2 (Or.inr (Or.inr rfl))
  revert hc
  decide

/-- C4 amended: `alloc` returns `Unsupported` exactly when the alignment
is not a power of two (which includes alignment 0); the check happens
before any mutation, so the bins are unchanged, and in particular
`alloc(16, 3)` and `alloc(16, 0)` fail that way.  A zero size is not
validated. -/
theorem C4_unsupported_amended (a : Allocator) (size al : Nat) :
    ((Allocator.alloc a size al).1 = .error .unsupported ↔
      isPow2 al = false) ∧
    (isPow2 al = false → (Allocator.alloc a size al).2 = a) ∧
    Allocator.alloc a 16 3 = (.error .unsupported, a) ∧
    Allocator.alloc a 16 0 = (.error .unsupported, a) := by
  have h3 : isPow2 3 = false := by decide
  have h0 : isPow2 0 = false := by decide
  refine ⟨⟨fun h => ?_, fun h => ?_⟩, fun h => ?_, ?_, ?_⟩
  · by_contra hpow
    rw [Bool.not_eq_false] at hpow
    rw [Allocator.alloc] at h
    rw [if_neg (by simp [hpow])] at h
    have hal : ¬ al = 0 := by
      intro h0'
      rw [h0'] at hpow
      simp [isPow2] at hpow
    rw [if_neg hal] at h
    rcases hrec : allocRec (35 - szBits size) a (szBits size) al with ⟨r, a1⟩
    rw [hrec] at h
    cases r with
    | ok p => simp at h
    | error err =>
      simp only [Except.error.injEq] at h
      have hex := (allocRec_error _ a (szBits size) al err a1 hrec).1
      rw [h] at hex
      exact absurd hex (by simp)
  · rw [Allocator.alloc, if_pos (by simp [h])]
  · rw [Allocator.alloc, if_pos (by simp [h])]
  · rw [Allocator.alloc, if_pos (by simp [h3])]
  · rw [Allocator.alloc, if_pos (by simp [h0])]

/-! ### Claim C5: the `[0, 1024)` coalescing scenario -/

/-- The final step of the C5 scenario: after deallocating the four blocks
in the order given by `l`, allocating 32 units at alignment 8 succeeds
with an address inside the span `[8, 40)` of the freed blocks. -/
def C5Check (a : Allocator) (l : List Nat) : Bool :=
  match deallocSeq a l with
  | some b =>
    match (Allocator.alloc b 32 8).1 with
    | .ok r => decide (8 ≤ r ∧ r < 40)
    | .error _ => false
  | none => false

/-- C5: over the region `[0, 1024)` (whose release-build initialization
drops `[0, 8)` and seeds one block per class from 8 to 512 units), four
`alloc(8, 8)` calls return the distinct 8-aligned addresses 8, 16, 24
and 32 inside the region; after deallocating all four in any of the 24
orders, `alloc(32, 8)` succeeds and returns an address in the span
`[8, 40)` the four blocks occupied. -/
theorem C5_scenario_holds :
    ∃ a0 a1 a2 a3 a4,
      Allocator.new 0 1024 = .ok a0 ∧
      Allocator.alloc a0 8 8 = (.ok 8, a1) ∧
      Allocator.alloc a1 8 8 = (.ok 16, a2) ∧
      Allocator.alloc a2 8 8 = (.ok 24, a3) ∧
      Allocator.alloc a3 8 8 = (.ok 32, a4) ∧
      ([8, 16, 24, 32] : List Nat).Nodup ∧
      (∀ x ∈ ([8, 16, 24, 32] : List Nat), x % 8 = 0 ∧ x < 1024) ∧
      (∀ l, l.Perm [8, 16, 24, 32] → C5Check a4 l = true) := by
  refine ⟨mkBins [(0,[8]),(1,[16]),(2,[32]),(3,[64]),(4,[128]),(5,[256]),(6,[512])],
         mkBins [(1,[16]),(2,[32]),(3,[64]),(4,[128]),(5,[256]),(6,[512])],
         mkBins [(0,[24]),(2,[32]),(3,[64]),(4,[128]),(5,[256]),(6,[512])],
         mkBins [(2,[32]),(3,[64]),(4,[128]),(5,[256]),(6,[512])],
         mkBins [(0,[40]),(1,[48]),(3,[64]),(4,[128]),(5,[256]),(6,[512])],
         by decide, by decide, by decide, by decide, by decide, by decide, by decide, ?_⟩
  intro l hl
  have hnd : l.Nodup := hl.symm.nodup (by decide)
  have hlen : l.length = 4 := hl.length_eq
  match l, hlen with
  | [a, b, c, d], _ =>
    have ha : a ∈ ([8, 16, 24, 32] : List Nat) := hl.subset (by simp)
    have hb : b ∈ ([8, 16, 24, 32] : List Nat) := hl.subset (by simp)
    have hc : c ∈ ([8, 16, 24, 32] : List Nat) := hl.subset (by simp)
    have hd : d ∈ ([8, 16, 24, 32] : List Nat) := hl.subset (by simp)
    clear hl hlen
    revert hnd
    fin_cases ha <;> fin_cases hb <;> fin_cases hc <;> fin_cases hd <;> decide

/-! ### Claim C6: allocate/deallocate round trip -/

/-- The round-trip property claim C6 states for one state and request:
if `alloc` succeeds, deallocating with the same arguments leaves the bins
in a state where repeating the `alloc` returns the identical address. -/
def RoundTrip (a : Allocator) (size al : Nat) : Prop :=
  ∀ p a', Allocator.alloc a size al = (.ok p, a') →
    ∃ a'', Allocator.dealloc a' p size al = some a'' ∧
      (Allocator.alloc a'' size al).1 = .ok p

/-- C6 counterexample: the state reached from the allocator over
`[64, 128)` by the valid call `alloc(1, 1)` (which splits the 64-unit
block down to size classes 1, 2 and 4, filling bin 0 with the fragments
65, 66, 68 and the half 72).  The valid request `(size 2, align 1)` then
pops 65; deallocating it computes buddy `65 XOR 2 = 67`, finds no buddy,
and aborts on the wrapped bin index `1 - 3`, so no subsequent allocation
can happen at all. -/
theorem C6_round_trip_counterexample :
    ∃ a0 a1, Allocator.new 64 128 = .ok a0 ∧
      Allocator.alloc a0 1 1 = (.ok 64, a1) ∧
      0 < 2 ∧ isPow2 1 = true ∧ ¬ RoundTrip a1 2 1 := by
  refine ⟨mkBins [(3, [64])],
          mkBins [(0, [65, 66, 68, 72]), (1, [80]), (2, [96])],
          by decide, by decide, by decide, by decide, fun h => ?_⟩
  obtain ⟨a2, hdead, _⟩ :=
    h 65 (mkBins [(0, [66, 68, 72]), (1, [80]), (2, [96])]) (by decide)
  rw [show Allocator.dealloc
      (mkBins [(0, [66, 68, 72]), (1, [80]), (2, [96])]) 65 2 1 = none
    from by decide] at hdead
  exact absurd hdead (by simp)

/-! ### Claim C9: recursion depth of the two engines -/

/-- Claim C9's depth bound: the internal recursion of an allocate or
deallocate call never exceeds 32 levels. -/
def DepthClaim : Prop :=
  ∀ a size al ptr,
    allocRecDepth (35 - szBits size) a (szBits size) al ≤ 32 ∧
    deallocRecDepth (35 - szBits size) a ptr (szBits size) ≤ 32

/-- C9 counterexample: `alloc(size = 1, align = 1)` on an allocator with
empty bins (`new` over `[8, 9)` drops its 1-unit region) starts at size
class 0; classes 0, 1, 2, 3 all map to bin 0, so the recursion touches
36 frames — the 32-level ceiling is exceeded because sub-minimum classes
add up to 3 extra levels, plus the final exhausted frame. -/
theorem C9_depth_counterexample : ¬ DepthClaim := by
  intro h
  have hc := (h ⟨List.replicate 32 []⟩ 1 1 0).1
  have h36 : allocRecDepth (35 - szBits 1) ⟨List.replicate 32 []⟩ (szBits 1) 1 = 36 := by
    decide
  rw [h36] at hc
  omega

/-- Generic depth bound for `_alloc`: at most `gas + 1` frames. -/
lemma allocRecDepth_le (gas : Nat) :
    ∀ a sz al, allocRecDepth gas a sz al ≤ gas + 1 := by
  induction gas with
  | zero => intro a sz al; rw [allocRecDepth]
  | succ gas ih =>
    intro a sz al
    rw [allocRecDepth]
    split
    · omega
    · split
      · omega
      · have := ih a (sz + 1) al
        omega

/-- Generic depth bound for `_dealloc`: at most `gas + 1` frames. -/
lemma deallocRecDepth_le (gas : Nat) :
    ∀ a ptr sz, deallocRecDepth gas a ptr sz ≤ gas + 1 := by
  induction gas with
  | zero => intro a ptr sz; rw [deallocRecDepth]
  | succ gas ih =>
    intro a ptr sz
    rw [deallocRecDepth]
    split
    · omega
    · split
      · rename_i rest hres
        have := ih (setBin a (sz - 3) rest) (min ptr (ptr ^^^ 2 ^ (sz % 64))) (sz + 1)
        omega
      · omega

/-- C9 amended: both engines terminate with recursion depth at most 36
frames — one frame per size-class level from the request's class up to
the exhausted level 35, where classes 0–3 all map to bin 0, so requests
below the minimum class add up to 3 extra levels beyond the 32 bins.
Allocation always returns success or an error; deallocation completes
unless it hits the sub-minimum-class abort of C3. -/
theorem C9_depth_amended (a : Allocator) (size al ptr : Nat) :
    allocRecDepth (35 - szBits size) a (szBits size) al ≤ 36 ∧
    deallocRecDepth (35 - szBits size) a ptr (szBits size) ≤ 36 := by
  constructor
  · have := allocRecDepth_le (35 - szBits size) a (szBits size) al
    omega
  · have := deallocRecDepth_le (35 - szBits size) a ptr (szBits size)
    omega

/-! ### Claim C10: totality of construction -/

/-- Claim C10: construction succeeds, without any arithmetic or shift
overflow, for every region with `start < end` — including `start = 0`. -/
def TotalConstructClaim : Prop :=
  ∀ s e, s < e → ∃ a, Allocator.newChecked s e = .ok a

/-- C10 counterexample: with `start = 0`, `start.trailing_zeros()` is 64
and `1 << 64` overflows the shift width, so a checked build aborts while
constructing over `[0, 1024)` (a release build masks the shift and
silently drops `[0, 8)`). -/
theorem C10_construct_counterexample : ¬ TotalConstructClaim := by
  intro h
  obtain ⟨a, ha⟩ := h 0 1024 (by omega)
  rw [show Allocator.newChecked 0 1024 = .error .shiftOverflow from by decide] at ha
  exact absurd ha (by simp)

/-! ### Arithmetic facts about the helper functions -/

lemma log2Run_eq : ∀ fuel n, n ≤ fuel → log2Run fuel n = Nat.log2 n := by
  intro fuel
  induction fuel with
  | zero =>
    intro n h
    interval_cases n
    simp [log2Run, Nat.log2]
  | succ fuel ih =>
    intro n h
    rw [log2Run]
    split
    · rename_i h1
      rw [Nat.log2, if_neg (by omega)]
    · rename_i h1
      rw [ih (n / 2) (by omega)]
      conv_rhs => rw [Nat.log2]
      rw [if_pos (by omega)]

lemma log2floor_eq (n : Nat) : log2floor n = Nat.log2 n :=
  log2Run_eq n n le_rfl

lemma nextPow2_ge (n : Nat) : n ≤ nextPow2 n := by
  rw [nextPow2]
  split
  · omega
  · rename_i h
    rw [log2floor_eq]
    have := (Nat.log2_lt (n := n - 1) (by omega)).mp (Nat.lt_succ_self _)
    omega

lemma nextPow2_isPow (n : Nat) : ∃ k, nextPow2 n = 2 ^ k := by
  rw [nextPow2]
  split
  · exact ⟨0, rfl⟩
  · exact ⟨_, rfl⟩

lemma nextPow2_pos (n : Nat) : 0 < nextPow2 n := by
  obtain ⟨k, hk⟩ := nextPow2_isPow n
  rw [hk]
  positivity

lemma nextPow2_le (n k : Nat) (h : n ≤ 2 ^ k) : nextPow2 n ≤ 2 ^ k := by
  rw [nextPow2]
  split
  · exact Nat.one_le_two_pow
  · rename_i h1
    rw [log2floor_eq]
    have hlog : Nat.log2 (n - 1) < k := by
      rw [Nat.log2_lt (by omega)]
      omega
    exact Nat.pow_le_pow_right (by omega) (by omega)

lemma nextPow2_two_pow (k : Nat) : nextPow2 (2 ^ k) = 2 ^ k :=
  le_antisymm (nextPow2_le _ _ le_rfl) (nextPow2_ge _)

lemma nextPow2_le_two_mul (n : Nat) (h : 2 ≤ n) : nextPow2 n ≤ 2 * (n - 1) := by
  rw [nextPow2, if_neg (by omega), log2floor_eq, pow_succ, Nat.mul_comm]
  have := Nat.log2_self_le (n := n - 1) (by omega)
  omega

lemma tzRun_spec : ∀ fuel n, 0 < n → n ≤ fuel →
    2 ^ tzRun fuel n ∣ n ∧ n / 2 ^ tzRun fuel n % 2 = 1 := by
  intro fuel
  induction fuel with
  | zero => intro n h1 h2; omega
  | succ fuel ih =>
    intro n h1 h2
    rw [tzRun]
    split
    · rename_i hodd
      simpa using hodd
    · rename_i heven
      have hn2 : n % 2 = 0 := by omega
      have hpos : 0 < n / 2 := by omega
      have hle : n / 2 ≤ fuel := by omega
      obtain ⟨hdvd, hodd⟩ := ih (n / 2) hpos hle
      constructor
      · obtain ⟨q, hq⟩ := hdvd
        refine ⟨q, ?_⟩
        set t := tzRun fuel (n / 2) with ht
        calc n = 2 * (n / 2) := by omega
          _ = 2 * (2 ^ t * q) := by rw [hq]
          _ = 2 ^ (t + 1) * q := by rw [pow_succ]; ring
      · rw [pow_succ, Nat.mul_comm, ← Nat.div_div_eq_div_mul]
        exact hodd

lemma trailingZeros_spec (n : Nat) (h : 0 < n) :
    2 ^ trailingZeros n ∣ n ∧ n / 2 ^ trailingZeros n % 2 = 1 := by
  rw [trailingZeros, if_neg (by omega)]
  exact tzRun_spec n n h le_rfl

/-- The trailing-zero count is the unique `t` with `2 ^ t ∣ n` and odd
quotient. -/
lemma trailingZeros_unique (n t : Nat) (h1 : 2 ^ t ∣ n)
    (h2 : n / 2 ^ t % 2 = 1) : trailingZeros n = t := by
  have hn : 0 < n := by
    rcases Nat.eq_zero_or_pos n with h | h
    · rw [h] at h2; simp at h2
    · exact h
  obtain ⟨hd, ho⟩ := trailingZeros_spec n hn
  set s := trailingZeros n with hs
  rcases Nat.lt_trichotomy s t with hlt | heq | hgt
  · exfalso
    obtain ⟨q, hq⟩ := h1
    have hsplit : 2 ^ t * q = 2 ^ (t - s) * q * 2 ^ s := by
      rw [Nat.mul_right_comm, ← pow_sub_mul_pow 2 (le_of_lt hlt)]
    have hdiv : n / 2 ^ s = 2 ^ (t - s) * q := by
      rw [hq, hsplit, Nat.mul_div_cancel _ (by positivity)]
    rw [hdiv] at ho
    obtain ⟨u, hu⟩ : ∃ u, t - s = u + 1 := ⟨t - s - 1, by omega⟩
    rw [hu, pow_succ, show 2 ^ u * 2 * q = 2 * (2 ^ u * q) by ring] at ho
    omega
  · exact heq
  · exfalso
    obtain ⟨q, hq⟩ := hd
    have hsplit : 2 ^ s * q = 2 ^ (s - t) * q * 2 ^ t := by
      rw [Nat.mul_right_comm, ← pow_sub_mul_pow 2 (le_of_lt hgt)]
    have hdiv : n / 2 ^ t = 2 ^ (s - t) * q := by
      rw [hq, hsplit, Nat.mul_div_cancel _ (by positivity)]
    rw [hdiv] at h2
    obtain ⟨u, hu⟩ : ∃ u, s - t = u + 1 := ⟨s - t - 1, by omega⟩
    rw [hu, pow_succ, show 2 ^ u * 2 * q = 2 * (2 ^ u * q) by ring] at h2
    omega

lemma trailingZeros_two_pow (k : Nat) : trailingZeros (2 ^ k) = k :=
  trailingZeros_unique _ _ dvd_rfl (by rw [Nat.div_self (by positivity)])

/-- `tz n = t` exactly when `n` is `2 ^ t` modulo `2 ^ (t + 1)`. -/
lemma trailingZeros_eq_iff (n t : Nat) (h : 0 < n) :
    trailingZeros n = t ↔ n % 2 ^ (t + 1) = 2 ^ t := by
  constructor
  · intro ht
    obtain ⟨hd, ho⟩ := trailingZeros_spec n h
    rw [ht] at hd ho
    obtain ⟨q, hq⟩ := hd
    rw [hq, Nat.mul_comm, Nat.mul_div_cancel _ (by positivity)] at ho
    rw [hq, pow_succ, Nat.mul_mod_mul_left, ho, Nat.mul_one]
  · intro hm
    have hd : 2 ^ t ∣ n := by
      have h1 : n % 2 ^ (t + 1) % 2 ^ t = 0 := by
        rw [hm, Nat.mod_self]
      rw [Nat.mod_mod_of_dvd _ (by rw [pow_succ]; exact Dvd.intro 2 rfl)] at h1
      exact Nat.dvd_of_mod_eq_zero h1
    refine trailingZeros_unique n t hd ?_
    obtain ⟨q, hq⟩ := hd
    rw [hq, Nat.mul_comm, Nat.mul_div_cancel _ (by positivity)]
    rw [hq, pow_succ, Nat.mul_mod_mul_left] at hm
    have hq2 : 2 ^ t * (q % 2) = 2 ^ t * 1 := by rw [hm, Nat.mul_one]
    exact Nat.eq_of_mul_eq_mul_left (by positivity) hq2

/-- A positive value is divisible by the power of two of its
trailing-zero count. -/
lemma pow_tz_dvd (n : Nat) (h : 0 < n) : 2 ^ trailingZeros n ∣ n :=
  (trailingZeros_spec n h).1

/-! ### XOR with a power of two as arithmetic -/

/-- XOR acts independently on the low bit and the rest. -/
lemma xor_two_mul_add (b c : Bool) (m n : Nat) :
    (2 * m + b.toNat) ^^^ (2 * n + c.toNat) = 2 * (m ^^^ n) + (b != c).toNat := by
  have := Nat.xor_bit b m c n
  simpa [Nat.bit_val] using this

/-- Flipping a zero bit `t` adds `2 ^ t`; flipping a one bit subtracts
it. -/
lemma xor_two_pow_spec : ∀ t x,
    (x / 2 ^ t % 2 = 0 → x ^^^ 2 ^ t = x + 2 ^ t) ∧
    (x / 2 ^ t % 2 = 1 → 2 ^ t ≤ x ∧ x ^^^ 2 ^ t = x - 2 ^ t) := by
  intro t
  induction t with
  | zero =>
    intro x
    have hx : x = 2 * (x / 2) + x % 2 := by omega
    constructor
    · intro h
      have h0 : x % 2 = 0 := by simpa using h
      have hb : x = 2 * (x / 2) + (false : Bool).toNat := by
        simp [Bool.toNat]; omega
      have h1 : (1 : Nat) = 2 * 0 + (true : Bool).toNat := by simp
      rw [pow_zero, hb, h1, xor_two_mul_add]
      simp
      try omega
    · intro h
      have h0 : x % 2 = 1 := by simpa using h
      have hb : x = 2 * (x / 2) + (true : Bool).toNat := by
        simp [Bool.toNat]; omega
      have h1 : (1 : Nat) = 2 * 0 + (true : Bool).toNat := by simp
      refine ⟨by omega, ?_⟩
      rw [pow_zero, hb, h1, xor_two_mul_add]
      simp
      try omega
  | succ t ih =>
    intro x
    have hsplit : x / 2 ^ (t + 1) = x / 2 / 2 ^ t := by
      rw [Nat.div_div_eq_div_mul, pow_succ, Nat.mul_comm]
    have hpow : (2 : Nat) ^ (t + 1) = 2 * 2 ^ t + (false : Bool).toNat := by
      simp [pow_succ]; ring
    rcases Nat.mod_two_eq_zero_or_one x with hb | hb
    · have hx : x = 2 * (x / 2) + (false : Bool).toNat := by
        simp [Bool.toNat]; omega
      constructor
      · intro h
        rw [hsplit] at h
        have hrec := (ih (x / 2)).1 h
        rw [hx, hpow, xor_two_mul_add, hrec]
        simp [pow_succ]
        ring
      · intro h
        rw [hsplit] at h
        obtain ⟨hle, hrec⟩ := (ih (x / 2)).2 h
        refine ⟨by rw [pow_succ]; omega, ?_⟩
        rw [hx, hpow, xor_two_mul_add, hrec]
        simp [pow_succ]
        omega
    · have hx : x = 2 * (x / 2) + (true : Bool).toNat := by
        simp [Bool.toNat]; omega
      constructor
      · intro h
        rw [hsplit] at h
        have hrec := (ih (x / 2)).1 h
        rw [hx, hpow, xor_two_mul_add, hrec]
        simp [pow_succ]
        ring
      · intro h
        rw [hsplit] at h
        obtain ⟨hle, hrec⟩ := (ih (x / 2)).2 h
        refine ⟨by rw [pow_succ]; omega, ?_⟩
        rw [hx, hpow, xor_two_mul_add, hrec]
        simp [pow_succ]
        omega

/-- Flipping a clear bit `t` adds `2 ^ t`. -/
lemma xor_two_pow_of_bit0 (x t : Nat) (h : x / 2 ^ t % 2 = 0) :
    x ^^^ 2 ^ t = x + 2 ^ t :=
  (xor_two_pow_spec t x).1 h

/-- Flipping a set bit `t` subtracts `2 ^ t`. -/
lemma xor_two_pow_of_bit1 (x t : Nat) (h : x / 2 ^ t % 2 = 1) :
    2 ^ t ≤ x ∧ x ^^^ 2 ^ t = x - 2 ^ t :=
  (xor_two_pow_spec t x).2 h

/-- XOR with a nonzero constant moves every point. -/
lemma xor_two_pow_ne (x t : Nat) : x ^^^ 2 ^ t ≠ x := by
  intro h
  have h2 : x ^^^ 2 ^ t = x ^^^ 0 := by rw [h, Nat.xor_zero]
  have := Nat.xor_right_inj.mp h2
  exact absurd this (by positivity)

/-! ### Bin array and scan lemmas -/

/-- Well-formed state: the bin array has its 32 entries. -/
def WF (a : Allocator) : Prop := a.bins.length = 32

lemma WF_setBin (a : Allocator) (i : Nat) (l : List Nat) (h : WF a) :
    WF (setBin a i l) := by
  simpa [WF, setBin] using h

lemma WF_pushBin (a : Allocator) (i x : Nat) (h : WF a) :
    WF (pushBin a i x) := WF_setBin _ _ _ h

lemma getBin_setBin_same (a : Allocator) (i : Nat) (l : List Nat)
    (hw : WF a) (hi : i < 32) : getBin (setBin a i l) i = l := by
  have hlen : i < a.bins.length := by rw [hw]; exact hi
  simp [getBin, setBin, List.getD, List.get?_eq_getElem?,
    List.getElem?_set_eq_of_lt _ hlen]

lemma getBin_setBin_ne (a : Allocator) (i j : Nat) (l : List Nat)
    (hij : i ≠ j) : getBin (setBin a i l) j = getBin a j := by
  simp [getBin, setBin, List.getD, List.get?_eq_getElem?,
    List.getElem?_set_ne hij]

lemma getBin_pushBin_same (a : Allocator) (i x : Nat)
    (hw : WF a) (hi : i < 32) :
    getBin (pushBin a i x) i = x :: getBin a i :=
  getBin_setBin_same a i _ hw hi

lemma getBin_pushBin_ne (a : Allocator) (i j x : Nat) (hij : i ≠ j) :
    getBin (pushBin a i x) j = getBin a j :=
  getBin_setBin_ne a i j _ hij

lemma removeFirstAligned_some (al : Nat) :
    ∀ l y rest, removeFirstAligned al l = some (y, rest) →
      y ∈ l ∧ y / al * al = y ∧ (∀ z ∈ rest, z ∈ l) := by
  intro l
  induction l with
  | nil => intro y rest h; simp [removeFirstAligned] at h
  | cons x xs ih =>
    intro y rest h
    rcases hrec : removeFirstAligned al xs with _ | ⟨y2, l2⟩ <;>
      rw [removeFirstAligned, hrec] at h <;> split_ifs at h with hal <;>
      simp only [Option.some.injEq, Prod.mk.injEq] at h
    · obtain ⟨hy, hr⟩ := h
      subst hy; subst hr
      exact ⟨by simp, hal, fun z hz => by simp [hz]⟩
    · obtain ⟨hy, hr⟩ := h
      subst hy; subst hr
      exact ⟨by simp, hal, fun z hz => by simp [hz]⟩
    · obtain ⟨hy, hr⟩ := h
      subst hy; subst hr
      obtain ⟨h1, h2, h3⟩ := ih y2 l2 hrec
      refine ⟨by simp [h1], h2, ?_⟩
      intro z hz
      rcases List.mem_cons.mp hz with hz | hz
      · simp [hz]
      · simp [h3 z hz]

lemma removeFirstAligned_none (al : Nat) :
    ∀ l, removeFirstAligned al l = none ↔ ∀ x ∈ l, ¬ x / al * al = x := by
  intro l
  induction l with
  | nil => simp [removeFirstAligned]
  | cons x rest ih =>
    rcases hrec : removeFirstAligned al rest with _ | ⟨y, l2⟩ <;>
      rw [removeFirstAligned, hrec] <;> split_ifs with hal
    · simp [hal]
    · simpa [hal] using ih.mp hrec
    · simp [hal]
    · obtain ⟨hmem, haly, _⟩ := removeFirstAligned_some al rest y l2 hrec
      simp only [List.mem_cons]
      constructor
      · intro h; simp at h
      · intro h
        exact absurd haly (h y (Or.inr hmem))

lemma removeFirstAligned_cons_aligned (al x : Nat) (l : List Nat)
    (h : x / al * al = x) :
    removeFirstAligned al (x :: l) = some (x, l) := by
  rw [removeFirstAligned, if_pos h]

lemma removeFirstEq_some (v : Nat) :
    ∀ l rest, removeFirstEq v l = some rest →
      v ∈ l ∧ (∀ z ∈ rest, z ∈ l) := by
  intro l
  induction l with
  | nil => intro rest h; simp [removeFirstEq] at h
  | cons x xs ih =>
    intro rest h
    rcases hrec : removeFirstEq v xs with _ | l2 <;>
      rw [removeFirstEq, hrec] at h <;> split_ifs at h with hx <;>
      simp only [Option.some.injEq] at h
    · subst hx; subst h
      exact ⟨by simp, fun z hz => by simp [hz]⟩
    · subst hx; subst h
      exact ⟨by simp, fun z hz => by simp [hz]⟩
    · subst h
      obtain ⟨h1, h2⟩ := ih l2 hrec
      refine ⟨by simp [h1], ?_⟩
      intro z hz
      rcases List.mem_cons.mp hz with hz | hz
      · simp [hz]
      · simp [h2 z hz]

lemma removeFirstEq_none (v : Nat) :
    ∀ l, removeFirstEq v l = none ↔ v ∉ l := by
  intro l
  induction l with
  | nil => simp [removeFirstEq]
  | cons x rest ih =>
    rcases hrec : removeFirstEq v rest with _ | l2 <;>
      rw [removeFirstEq, hrec] <;> split_ifs with hx
    · subst hx; simp
    · simp only [List.mem_cons]
      constructor
      · intro _
        rintro (h | h)
        · exact hx h.symm
        · exact (ih.mp hrec) h
      · intro _; trivial
    · subst hx; simp
    · obtain ⟨hmem, _⟩ := removeFirstEq_some v rest l2 hrec
      constructor
      · intro h; simp at h
      · intro h
        exact absurd (by simp [hmem] : v ∈ x :: rest) h

lemma removeFirstEq_cons_self (v : Nat) (l : List Nat) :
    removeFirstEq v (v :: l) = some l := by
  rw [removeFirstEq, if_pos rfl]

/-! ### Sum and initializer lemmas -/

lemma sumAux_set : ∀ (bs : List (List Nat)) (i x k : Nat), i < bs.length →
    sumAux k (bs.set i (x :: bs.getD i [])) = sumAux k bs + 2 ^ (k + i) := by
  intro bs
  induction bs with
  | nil => intro i x k h; simp at h
  | cons b rest ih =>
    intro i x k h
    cases i with
    | zero =>
      simp only [List.set, List.getD, List.get?_eq_getElem?]
      rw [sumAux, sumAux]
      simp only [List.getElem?_cons_zero, Option.getD_some, List.length_cons]
      ring
    | succ i =>
      simp only [List.set, List.getD, List.get?_eq_getElem?,
        List.getElem?_cons_succ]
      rw [sumAux, sumAux]
      have := ih i x (k + 1) (by simpa using h)
      rw [List.getD, List.get?_eq_getElem?] at this
      rw [this]
      have harr : k + 1 + i = k + (i + 1) := by omega
      rw [harr]
      ring

lemma sumSizes_pushBin (a : Allocator) (bi x : Nat) (hw : WF a)
    (hbi : bi < 32) :
    sumSizes (pushBin a bi x) = sumSizes a + 2 ^ (bi + 3) := by
  rw [sumSizes, sumSizes, pushBin, setBin, getBin]
  have := sumAux_set a.bins bi x 3 (by rw [hw]; exact hbi)
  rw [this, Nat.add_comm 3 bi]

/-- One iteration of the loop cannot run when the cursor has reached the
end. -/
lemma initLoop_done (dbg : Bool) (fuel c e : Nat) (a : Allocator)
    (h : ¬ c < e) : initLoop dbg fuel c e a = .ok a := by
  cases fuel <;> rw [initLoop, if_neg h]

/-- The release-or-checked initializer completes normally on any
bounded region with a positive start. -/
lemma initLoop_ok (dbg : Bool) (e : Nat) (he : e ≤ 2 ^ 34) :
    ∀ fuel c a, 0 < c → e ≤ c + fuel → WF a →
      ∃ a', initLoop dbg fuel c e a = .ok a' ∧ WF a' := by
  intro fuel
  induction fuel with
  | zero =>
    intro c a hc hf hw
    refine ⟨a, ?_, hw⟩
    rw [initLoop, if_neg (by omega)]
  | succ fuel ih =>
    intro c a hc hf hw
    by_cases hce : c < e
    · have htzc : trailingZeros c = tzRun c c := by
        rw [trailingZeros, if_neg (by omega)]
      obtain ⟨hdvd, hodd⟩ := trailingZeros_spec c hc
      -- the two candidate block sizes
      have harm1 : 2 ^ trailingZeros c ≤ c := Nat.le_of_dvd hc hdvd
      have hd1 : (1:Nat) ≤ e - c := by omega
      have hnp : nextPow2 (e - c) ≤ 2 ^ 34 := nextPow2_le _ _ (by omega)
      have hraw : ¬ 2 ^ 63 < e - c := by
        have : (2:Nat) ^ 34 ≤ 2 ^ 63 := Nat.pow_le_pow_right (by omega) (by omega)
        omega
      have hnppos : 0 < nextPow2 (e - c) := nextPow2_pos _
      have hmod : nextPow2 (e - c) * 2 % U64 = nextPow2 (e - c) * 2 := by
        apply Nat.mod_eq_of_lt
        rw [U64]
        have h2 : (2:Nat) ^ 35 = 2 ^ 34 * 2 := pow_succ 2 34
        have h3 : (2:Nat) ^ 35 < 2 ^ 64 := Nat.pow_lt_pow_right (by omega) (by omega)
        omega
      rw [initLoop, if_pos hce]
      set sz := min (2 ^ trailingZeros c) (nextPow2 (e - c) * 2 % U64) with hsz
      have hszpos : 0 < sz := by
        rw [hsz, hmod]
        have : 0 < nextPow2 (e - c) * 2 := by omega
        have h1 : 0 < 2 ^ trailingZeros c := by positivity
        omega
      have hszle : sz ≤ c := le_trans (Nat.min_le_left _ _) harm1
      have hcsz : c + sz < 2 ^ 35 := by
        have h1 : c < 2 ^ 34 := by omega
        have h2 : (2:Nat) ^ 35 = 2 ^ 34 * 2 := pow_succ 2 34
        omega
      have hmod2 : (c + sz) % U64 = c + sz := by
        apply Nat.mod_eq_of_lt
        rw [U64]
        have : (2:Nat) ^ 35 < 2 ^ 64 := Nat.pow_lt_pow_right (by omega) (by omega)
        omega
      have hbin : 8 ≤ sz → trailingZeros sz - 3 < 32 := by
        intro h8
        have hszp : ∃ k, sz = 2 ^ k := by
          rcases Nat.le_total (2 ^ trailingZeros c) (nextPow2 (e - c) * 2 % U64) with hm | hm
          · exact ⟨_, by rw [hsz, Nat.min_eq_left hm]⟩
          · obtain ⟨k, hk⟩ := nextPow2_isPow (e - c)
            exact ⟨k + 1, by rw [hsz, Nat.min_eq_right hm, hmod, hk, pow_succ]⟩
        obtain ⟨k, hk⟩ := hszp
        have hk34 : k ≤ 34 := by
          by_contra hgt
          have : 2 ^ 35 ≤ 2 ^ k := Nat.pow_le_pow_right (by omega) (by omega)
          rw [hk] at hszle
          omega
        rw [hk, trailingZeros_two_pow]
        omega
      have hng : ¬ (dbg ∧ 2 ^ 63 < e - c) := by
        intro ⟨_, hcon⟩; exact hraw hcon
      have hng2 : ¬ (dbg ∧ c = 0) := by
        intro ⟨_, hcon⟩; omega
      have hng3 : ¬ (dbg ∧ U64 ≤ c + sz) := by
        intro ⟨_, hcon⟩
        rw [U64] at hcon
        have : (2:Nat) ^ 35 < 2 ^ 64 := Nat.pow_lt_pow_right (by omega) (by omega)
        omega
      rw [if_neg hng2, if_neg (by omega : ¬ c = 0), if_neg hng]
      rw [if_neg hraw]
      simp only
      rw [if_neg (by omega : ¬ sz = 0)]
      rw [if_neg (show ¬ (8 ≤ sz ∧ 32 ≤ trailingZeros sz - 3) by
        intro ⟨h8, hx⟩; exact absurd (hbin h8) (by omega))]
      rw [if_neg hng3, hmod2]
      by_cases h8 : 8 ≤ sz
      · rw [if_pos h8]
        exact ih (c + sz) _ (by omega) (by omega)
          (WF_pushBin _ _ _ hw)
      · rw [if_neg h8]
        exact ih (c + sz) a (by omega) (by omega) hw
    · exact ⟨a, initLoop_done dbg _ c e a hce, hw⟩

/-! ### The buddy invariant for states produced by the initializer -/

/-- Two distinct positive values with the same exact trailing-zero count
`t` cannot be related by flipping bit `t`. -/
lemma tz_exact_pair_false (x y t : Nat) (hx : 0 < x) (htx : trailingZeros x = t)
    (hy : 0 < y) (hty : trailingZeros y = t) (hxy : y = x ^^^ 2 ^ t) : False := by
  have hbx : x / 2 ^ t % 2 = 1 := by
    have := (trailingZeros_spec x hx).2
    rwa [htx] at this
  obtain ⟨hle, hsub⟩ := xor_two_pow_of_bit1 x t hbx
  rw [hsub] at hxy
  have hmx : x % 2 ^ (t + 1) = 2 ^ t := (trailingZeros_eq_iff x t hx).mp htx
  have hmy : y % 2 ^ (t + 1) = 2 ^ t := (trailingZeros_eq_iff y t hy).mp hty
  obtain ⟨m, hm⟩ : ∃ m, y = 2 ^ (t + 1) * m + 2 ^ t :=
    ⟨y / 2 ^ (t + 1), by
      conv_lhs => rw [← Nat.div_add_mod y (2 ^ (t + 1))]
      rw [hmy]⟩
  have hQ : (2:Nat) ^ (t + 1) = 2 ^ t + 2 ^ t := by rw [pow_succ]; omega
  have h1 : x = 2 ^ (t + 1) * m + 2 ^ (t + 1) := by omega
  have h2 : x % 2 ^ (t + 1) = 0 := by
    rw [h1, show (2:Nat) ^ (t + 1) * m + 2 ^ (t + 1) = 2 ^ (t + 1) * (m + 1) by ring]
    exact Nat.mul_mod_right _ _
  have hpos : (0:Nat) < 2 ^ t := by positivity
  omega

/-- A state whose bins all hold positive addresses of exactly matching
trailing-zero count satisfies the buddy invariant. -/
lemma xorInv_of_exact (a : Allocator)
    (h : ∀ i < 32, ∀ x ∈ getBin a i, 0 < x ∧ trailingZeros x = i + 3) :
    XorInv a := by
  intro i hi x hx hy
  obtain ⟨hx0, hxt⟩ := h i hi x hx
  obtain ⟨hy0, hyt⟩ := h i hi _ hy
  exact tz_exact_pair_false x _ (i + 3) hx0 hxt hy0 hyt rfl

/-- Pushing one extra block whose alignment strictly exceeds the bin's
class onto a bin array of exactly-aligned blocks lying below it keeps
the buddy invariant. -/
lemma xorInv_push_B (a : Allocator) (bi c : Nat) (hw : WF a) (hbi : bi < 32)
    (hA : ∀ i < 32, ∀ x ∈ getBin a i,
      0 < x ∧ trailingZeros x = i + 3 ∧ x + 2 ^ (i + 3) ≤ c)
    (hc : 0 < c) (hdvd : 2 ^ (bi + 4) ∣ c) : XorInv (pushBin a bi c) := by
  have hxa : XorInv a :=
    xorInv_of_exact a (fun i hi x hx => ⟨(hA i hi x hx).1, (hA i hi x hx).2.1⟩)
  intro i hi x hx hy
  by_cases hibi : bi = i
  · subst hibi
    rw [getBin_pushBin_same a bi _ hw hbi] at hx hy
    have hcbit : c / 2 ^ (bi + 3) % 2 = 0 := by
      obtain ⟨q, hq⟩ := hdvd
      rw [hq, pow_succ, Nat.mul_assoc, Nat.mul_comm 2 q,
        Nat.mul_div_cancel_left _ (by positivity : (0:Nat) < 2 ^ (bi + 3))]
      omega
    rcases List.mem_cons.mp hx with hxc | hxold
    · subst hxc
      have hplus := xor_two_pow_of_bit0 x (bi + 3) hcbit
      rw [hplus] at hy
      rcases List.mem_cons.mp hy with hyc | hyold
      · have hp : (0:Nat) < 2 ^ (bi + 3) := by positivity
        omega
      · obtain ⟨_, _, hlt⟩ := hA bi hbi _ hyold
        have hp : (0:Nat) < 2 ^ (bi + 3) := by positivity
        omega
    · obtain ⟨hx0, hxt, hxlt⟩ := hA bi hbi x hxold
      have hbx : x / 2 ^ (bi + 3) % 2 = 1 := by
        have := (trailingZeros_spec x hx0).2
        rwa [hxt] at this
      obtain ⟨hle, hsub⟩ := xor_two_pow_of_bit1 x (bi + 3) hbx
      rw [hsub] at hy
      rcases List.mem_cons.mp hy with hyc | hyold
      · have hp : (0:Nat) < 2 ^ (bi + 3) := by positivity
        omega
      · obtain ⟨hy0, hyt, _⟩ := hA bi hbi _ hyold
        refine tz_exact_pair_false x _ (bi + 3) hx0 hxt hy0 hyt ?_
        rw [hsub]
  · rw [getBin_pushBin_ne a bi i _ hibi] at hx hy
    exact hxa i hi x hx hy

/-- Intermediate invariant of the initializer loop: every tracked block
is positive, lies in `[lo, e)`, ends at or before the cursor, and has
exactly the trailing-zero count of its bin's class. -/
def InitInv (c e lo : Nat) (a : Allocator) : Prop :=
  ∀ i < 32, ∀ x ∈ getBin a i,
    0 < x ∧ lo ≤ x ∧ x < e ∧ x + 2 ^ (i + 3) ≤ c ∧ trailingZeros x = i + 3

/-- What the initializer guarantees about its final state. -/
def InitPost (e lo : Nat) (a : Allocator) : Prop :=
  (∀ i < 32, ∀ x ∈ getBin a i, 0 < x ∧ lo ≤ x ∧ x < e ∧ 2 ^ (i + 3) ∣ x) ∧
    XorInv a

lemma initInv_post (c e lo : Nat) (a : Allocator) (hinv : InitInv c e lo a) :
    InitPost e lo a := by
  constructor
  · intro i hi x hx
    obtain ⟨h0, h1, h2, _, h4⟩ := hinv i hi x hx
    refine ⟨h0, h1, h2, ?_⟩
    have := (trailingZeros_spec x h0).1
    rwa [h4] at this
  · exact xorInv_of_exact a (fun i hi x hx =>
      ⟨(hinv i hi x hx).1, (hinv i hi x hx).2.2.2.2⟩)

/-- Master lemma about completed runs of the initializer loop: the final
state is well formed, its blocks start inside `[lo, e)` and are aligned
to their class, the buddy invariant holds, and the covered units fall
short of the region by at most the low-boundary misalignment plus 2. -/
lemma initLoop_invariant (dbg : Bool) (e lo : Nat) (he : e ≤ 2 ^ 63) :
    ∀ fuel c a a', 0 < c → lo ≤ c → WF a → InitInv c e lo a →
      initLoop dbg fuel c e a = .ok a' →
      WF a' ∧ InitPost e lo a' ∧
        e + sumSizes a ≤ sumSizes a' + c + (8 - c % 8) % 8 + 2 := by
  intro fuel
  induction fuel with
  | zero =>
    intro c a a' hc hlo hw hinv hrun
    rw [initLoop] at hrun
    split at hrun
    · simp at hrun
    · rename_i hce
      simp only [Except.ok.injEq] at hrun
      subst hrun
      exact ⟨hw, initInv_post c e lo a hinv, by omega⟩
  | succ fuel ih =>
    intro c a a' hc hlo hw hinv hrun
    rw [initLoop] at hrun
    rcases Nat.lt_or_ge c e with hce | hce
    swap
    · rw [if_neg (by omega)] at hrun
      simp only [Except.ok.injEq] at hrun
      subst hrun
      exact ⟨hw, initInv_post c e lo a hinv, by omega⟩
    rw [if_pos hce] at hrun
    rw [if_neg (show ¬ (dbg ∧ c = 0) by rintro ⟨_, h0⟩; omega)] at hrun
    rw [if_neg (show ¬ (dbg ∧ 2 ^ 63 < e - c) by
      rintro ⟨_, hgt⟩; omega)] at hrun
    rw [if_neg (show ¬ c = 0 by omega)] at hrun
    rw [if_neg (show ¬ 2 ^ 63 < e - c by omega)] at hrun
    simp only at hrun
    set sz := min (2 ^ trailingZeros c) (nextPow2 (e - c) * 2 % U64) with hszdef
    rcases eq_or_ne sz 0 with hsz0 | hsz0
    · rw [if_pos hsz0] at hrun
      simp at hrun
    rw [if_neg hsz0] at hrun
    rcases Classical.em (8 ≤ sz ∧ 32 ≤ trailingZeros sz - 3) with hidx | hidx
    · rw [if_pos hidx] at hrun
      simp at hrun
    rw [if_neg hidx] at hrun
    obtain ⟨hcdvd, hcodd⟩ := trailingZeros_spec c hc
    have harm1 : 2 ^ trailingZeros c ≤ c := Nat.le_of_dvd hc hcdvd
    have hszle : sz ≤ c := le_trans (Nat.min_le_left _ _) harm1
    have hszpos : 0 < sz := by omega
    have hcsz64 : c + sz < U64 := by
      rw [U64]
      have h1 : c < 2 ^ 63 := by omega
      have h2 : (2:Nat) ^ 64 = 2 ^ 63 + 2 ^ 63 := by rw [pow_succ]; omega
      omega
    rw [if_neg (show ¬ (dbg ∧ U64 ≤ c + sz) by rintro ⟨_, hge⟩; omega)] at hrun
    rw [Nat.mod_eq_of_lt hcsz64] at hrun
    have hd1 : 1 ≤ e - c := by omega
    have hnp2 : nextPow2 (e - c) ≤ 2 ^ 63 := nextPow2_le _ _ (by omega)
    have harm2eq : nextPow2 (e - c) * 2 % U64 = nextPow2 (e - c) * 2 := by
      rcases Nat.lt_or_ge (nextPow2 (e - c) * 2) U64 with hlt | hge
      · exact Nat.mod_eq_of_lt hlt
      · exfalso
        have hle64 : nextPow2 (e - c) * 2 = U64 := by
          rw [U64]
          have h3 : (2:Nat) ^ 64 = 2 ^ 63 * 2 := pow_succ 2 63
          rw [U64] at hge
          omega
        rw [hszdef, hle64, Nat.mod_self] at hsz0
        simp at hsz0
    rw [harm2eq] at hszdef
    have hnpge : e - c ≤ nextPow2 (e - c) := nextPow2_ge _
    by_cases h8 : 8 ≤ sz
    · rw [if_pos h8] at hrun
      have hszpow : ∃ k, sz = 2 ^ k := by
        rcases Nat.le_total (2 ^ trailingZeros c) (nextPow2 (e - c) * 2) with hm | hm
        · exact ⟨_, by rw [hszdef, Nat.min_eq_left hm]⟩
        · obtain ⟨k, hk⟩ := nextPow2_isPow (e - c)
          exact ⟨k + 1, by rw [hszdef, Nat.min_eq_right hm, hk, pow_succ]⟩
      obtain ⟨k, hk⟩ := hszpow
      have htzsz : trailingZeros sz = k := by rw [hk]; exact trailingZeros_two_pow k
      have hk3 : 3 ≤ k := by
        by_contra hlt
        have hsmall : sz < 8 := by
          rw [hk]
          calc 2 ^ k ≤ 2 ^ 2 := Nat.pow_le_pow_right (by omega) (by omega)
            _ < 8 := by omega
        omega
      have hbik : trailingZeros sz - 3 = k - 3 := by omega
      have hbi : k - 3 < 32 := by
        by_contra hge
        exact hidx ⟨h8, by omega⟩
      have hkc : k ≤ trailingZeros c := by
        have h1 : sz ≤ 2 ^ trailingZeros c := Nat.min_le_left _ _
        rw [hk] at h1
        exact (Nat.pow_le_pow_iff_right (by omega)).mp h1
      have hdvdc : 2 ^ k ∣ c := dvd_trans (pow_dvd_pow 2 hkc) hcdvd
      rcases Nat.eq_or_lt_of_le hkc with hkeq | hklt
      · -- exactly matching class: keep looping
        have hinv' : InitInv (c + sz) e lo (pushBin a (trailingZeros sz - 3) c) := by
          intro i hi x hx
          by_cases hibi : trailingZeros sz - 3 = i
          · subst hibi
            rw [getBin_pushBin_same a _ _ hw (by omega)] at hx
            rcases List.mem_cons.mp hx with hxc | hxold
            · subst hxc
              refine ⟨hc, hlo, hce, ?_, ?_⟩
              · rw [hbik, show k - 3 + 3 = k by omega, ← hk]
              · rw [hbik, show k - 3 + 3 = k by omega, ← hkeq]
            · obtain ⟨h0, h1, h2, h3, h4⟩ := hinv _ hi x hxold
              exact ⟨h0, h1, h2, by omega, h4⟩
          · rw [getBin_pushBin_ne a _ i _ hibi] at hx
            obtain ⟨h0, h1, h2, h3, h4⟩ := hinv i hi x hx
            exact ⟨h0, h1, h2, by omega, h4⟩
        obtain ⟨hw', hpost, hsum⟩ := ih (c + sz) _ a' (by omega) (by omega)
          (WF_pushBin _ _ _ hw) hinv' hrun
        refine ⟨hw', hpost, ?_⟩
        rw [sumSizes_pushBin a _ c hw (by omega), hbik,
          show k - 3 + 3 = k by omega, ← hk] at hsum
        have hmod8 : (c + sz) % 8 = c % 8 := by
          have hdvd8 : (8:Nat) ∣ sz := by
            rw [hk]
            exact dvd_trans (by norm_num : (8:Nat) ∣ 2 ^ 3) (pow_dvd_pow 2 hk3)
          omega
        rw [hmod8] at hsum
        omega
      · -- the final, oversized block: the loop exits
        have hsz2d : 2 * (e - c) ≤ sz := by
          have h1 : sz = nextPow2 (e - c) * 2 := by
            rcases Nat.le_total (2 ^ trailingZeros c) (nextPow2 (e - c) * 2) with hm | hm
            · exfalso
              have h2 : sz = 2 ^ trailingZeros c := by
                rw [hszdef, Nat.min_eq_left hm]
              rw [hk] at h2
              have := Nat.pow_right_injective (le_refl 2) h2
              omega
            · rw [hszdef, Nat.min_eq_right hm]
          omega
        have hcend : ¬ c + sz < e := by omega
        rw [initLoop_done dbg fuel _ e _ hcend] at hrun
        simp only [Except.ok.injEq] at hrun
        subst hrun
        have hdvd4 : 2 ^ (k - 3 + 4) ∣ c := by
          rw [show k - 3 + 4 = k + 1 by omega]
          exact dvd_trans (pow_dvd_pow 2 (by omega)) hcdvd
        refine ⟨WF_pushBin _ _ _ hw, ⟨?_, ?_⟩, ?_⟩
        · intro i hi x hx
          by_cases hibi : trailingZeros sz - 3 = i
          · subst hibi
            rw [getBin_pushBin_same a _ _ hw (by omega)] at hx
            rcases List.mem_cons.mp hx with hxc | hxold
            · subst hxc
              refine ⟨hc, hlo, hce, ?_⟩
              rw [hbik, show k - 3 + 3 = k by omega]
              exact hdvdc
            · obtain ⟨h0, h1, h2, _, h4⟩ := hinv _ hi x hxold
              refine ⟨h0, h1, h2, ?_⟩
              have h5 := (trailingZeros_spec x h0).1
              rwa [h4] at h5
          · rw [getBin_pushBin_ne a _ i _ hibi] at hx
            obtain ⟨h0, h1, h2, _, h4⟩ := hinv i hi x hx
            refine ⟨h0, h1, h2, ?_⟩
            have h5 := (trailingZeros_spec x h0).1
            rwa [h4] at h5
        · rw [hbik]
          exact xorInv_push_B a (k - 3) c hw hbi
            (fun i hi x hx => ⟨(hinv i hi x hx).1, (hinv i hi x hx).2.2.2.2,
              (hinv i hi x hx).2.2.2.1⟩) hc hdvd4
        · rw [sumSizes_pushBin a _ c hw (by rw [hbik]; omega), hbik,
            show k - 3 + 3 = k by omega, ← hk]
          omega
    · rw [if_neg h8] at hrun
      rcases Nat.le_total (nextPow2 (e - c) * 2) (2 ^ trailingZeros c) with hm | hm
      · -- capped by the remaining range: at most 2 units stay uncovered
        have hszeq : sz = nextPow2 (e - c) * 2 := by
          rw [hszdef, Nat.min_eq_right hm]
        have hd2 : e - c ≤ 2 := by
          by_contra hgt
          obtain ⟨j, hj⟩ := nextPow2_isPow (e - c)
          have h3 : 3 ≤ nextPow2 (e - c) :=
            le_trans (show (3:Nat) ≤ e - c by omega) (nextPow2_ge (e - c))
          have hj2 : 2 ≤ j := by
            by_contra hlt
            have h5 : (2:Nat) ^ j ≤ 2 := by
              calc (2:Nat) ^ j ≤ 2 ^ 1 := Nat.pow_le_pow_right (by omega) (by omega)
                _ = 2 := by norm_num
            omega
          have h4 : (4:Nat) ≤ 2 ^ j := by
            calc (4:Nat) = 2 ^ 2 := by norm_num
              _ ≤ 2 ^ j := Nat.pow_le_pow_right (by omega) hj2
          omega
        have hcend : ¬ c + sz < e := by omega
        rw [initLoop_done dbg fuel _ e _ hcend] at hrun
        simp only [Except.ok.injEq] at hrun
        subst hrun
        exact ⟨hw, initInv_post c e lo a hinv, by omega⟩
      · -- the cursor's own sub-minimum alignment is dropped
        have hszeq : sz = 2 ^ trailingZeros c := by
          rw [hszdef, Nat.min_eq_left hm]
        have htzlt : trailingZeros c < 3 := by
          by_contra hge
          have h9 : (8:Nat) ≤ 2 ^ trailingZeros c := by
            calc (8:Nat) = 2 ^ 3 := by norm_num
              _ ≤ 2 ^ trailingZeros c := Nat.pow_le_pow_right (by omega) (by omega)
          omega
        have hinv' : InitInv (c + sz) e lo a := by
          intro i hi x hx
          obtain ⟨h0, h1, h2, h3, h4⟩ := hinv i hi x hx
          exact ⟨h0, h1, h2, by omega, h4⟩
        obtain ⟨hw', hpost, hsum⟩ := ih (c + sz) a a' (by omega) (by omega)
          hw hinv' hrun
        refine ⟨hw', hpost, ?_⟩
        have hcm : c % 2 ^ (trailingZeros c + 1) = 2 ^ trailingZeros c :=
          (trailingZeros_eq_iff c _ hc).mp rfl
        rcases (by omega : trailingZeros c = 0 ∨ trailingZeros c = 1 ∨
            trailingZeros c = 2) with ht | ht | ht <;>
          rw [ht] at hcm hszeq <;> norm_num at hcm hszeq <;> omega

/-- A fresh bin array holds nothing. -/
lemma WF_empty : WF ⟨List.replicate 32 []⟩ := by
  rw [WF]
  simp

lemma getBin_empty (i : Nat) :
    getBin ⟨List.replicate 32 []⟩ i = [] := by
  rw [getBin, List.getD_eq_getElem?_getD, List.getElem?_replicate]
  split <;> rfl

/-- The loop invariant holds vacuously on a fresh bin array. -/
lemma initInv_empty (c e lo : Nat) :
    InitInv c e lo ⟨List.replicate 32 []⟩ := by
  intro i hi x hx
  rw [getBin_empty] at hx
  exact absurd hx (List.not_mem_nil x)

/-- C1 amended: for any bounded region `[s, e)` with a positive start, the
initializer completes and the units left uncovered by the inserted blocks
number at most 9 (the up-to-7 units dropped while aligning the start to a
multiple of 8, plus a final fragment of at most 2 units; the original
bound 7 is refuted by `[1, 9)`). -/
theorem C1_coverage_amended (s e : Nat) (hs : 0 < s) (he : e ≤ 2 ^ 34) :
    ∃ a, Allocator.new s e = .ok a ∧ e ≤ sumSizes a + s + 9 := by
  rw [Allocator.new]
  obtain ⟨a, ha, _⟩ := initLoop_ok false e he (e - s) s ⟨List.replicate 32 []⟩
    hs (by omega) WF_empty
  refine ⟨a, ha, ?_⟩
  have h63 : e ≤ 2 ^ 63 := le_trans he (by norm_num)
  obtain ⟨_, _, hsum⟩ := initLoop_invariant false e s h63 (e - s) s
    ⟨List.replicate 32 []⟩ a hs (le_refl s) WF_empty (initInv_empty s e s) ha
  have hempty : sumSizes ⟨List.replicate 32 []⟩ = 0 := by decide
  have hm : (8 - s % 8) % 8 ≤ 7 := by omega
  omega

theorem C1_coverage_amended_witness :
    0 < 1 ∧ 10 ≤ 2 ^ 34 ∧
      ∃ a, Allocator.new 1 10 = .ok a ∧ 10 ≤ sumSizes a + 1 + 9 :=
  ⟨by decide, by norm_num, C1_coverage_amended 1 10 (by decide) (by norm_num)⟩

/-- C2 amended: every block the initializer inserts starts inside the
region and is aligned to its bin's block size; the block may however
extend past `end` (refuted for the original full-containment form by
`[8, 11)`). -/
theorem C2_inside_region_amended (s e : Nat) (hs : 0 < s) (he : e ≤ 2 ^ 63) :
    ∀ a, Allocator.new s e = .ok a →
      ∀ i, i < 32 → ∀ x ∈ getBin a i, s ≤ x ∧ x < e ∧ 2 ^ (i + 3) ∣ x := by
  intro a ha i hi x hx
  rw [Allocator.new] at ha
  obtain ⟨_, hpost, _⟩ := initLoop_invariant false e s he (e - s) s
    ⟨List.replicate 32 []⟩ a hs (le_refl s) WF_empty (initInv_empty s e s) ha
  obtain ⟨_, h1, h2, h3⟩ := hpost.1 i hi x hx
  exact ⟨h1, h2, h3⟩

theorem C2_inside_region_amended_witness :
    0 < 8 ∧ 11 ≤ 2 ^ 63 ∧
      ∀ a, Allocator.new 8 11 = .ok a →
        ∀ i, i < 32 → ∀ x ∈ getBin a i, 8 ≤ x ∧ x < 11 ∧ 2 ^ (i + 3) ∣ x :=
  ⟨by decide, by norm_num, C2_inside_region_amended 8 11 (by decide) (by norm_num)⟩

/-- C10 amended: construction is free of arithmetic and shift overflow —
even in an overflow-checked build — for every bounded region whose start
is positive (the original claim, which included `start = 0`, is refuted
by the 64-bit shift in `1 << start.trailing_zeros()`). -/
theorem C10_construct_amended (s e : Nat) (hs : 0 < s) (he : e ≤ 2 ^ 34) :
    ∃ a, Allocator.newChecked s e = .ok a := by
  rw [Allocator.newChecked]
  obtain ⟨a, ha, _⟩ := initLoop_ok true e he (e - s) s ⟨List.replicate 32 []⟩
    hs (by omega) WF_empty
  exact ⟨a, ha⟩

theorem C10_construct_amended_witness :
    0 < 8 ∧ 16 ≤ 2 ^ 34 ∧ ∃ a, Allocator.newChecked 8 16 = .ok a :=
  ⟨by decide, by norm_num, C10_construct_amended 8 16 (by decide) (by norm_num)⟩

/-! ### Claim C7: buddy coalescing -/

lemma two_pow_lt_two_pow (a b : Nat) (h : a < b) : (2:Nat) ^ a < 2 ^ b :=
  Nat.pow_lt_pow_right (by omega) h

lemma log2_two_pow (k : Nat) : Nat.log2 (2 ^ k) = k := by
  have hp : (0:Nat) < 2 ^ k := pow_pos (by omega) k
  have h1 : Nat.log2 (2 ^ k) < k + 1 :=
    (Nat.log2_lt (by omega)).mpr (two_pow_lt_two_pow k (k + 1) (by omega))
  have h2 : ¬ Nat.log2 (2 ^ k) < k := by
    intro h
    exact absurd ((Nat.log2_lt (by omega)).mp h) (lt_irrefl _)
  omega

/-- A power of two passes `is_power_of_two`. -/
lemma isPow2_two_pow (k : Nat) : isPow2 (2 ^ k) = true := by
  have hp : (0:Nat) < 2 ^ k := pow_pos (by omega) k
  rw [isPow2, log2floor_eq, log2_two_pow]
  simp

/-- The size-class exponent of a power-of-two request is its exponent. -/
lemma szBits_two_pow (k : Nat) (h : k ≤ 63) : szBits (2 ^ k) = k := by
  rw [szBits, if_neg (show ¬ (2:Nat) ^ 63 < 2 ^ k from
      not_lt.mpr (Nat.pow_le_pow_right (by omega) h)),
    nextPow2_two_pow, trailingZeros_two_pow]

/-- `alloc` with a power-of-two alignment reaches `_alloc` directly. -/
lemma alloc_eq_allocRec (a : Allocator) (size al : Nat)
    (hal : isPow2 al = true) (hal0 : al ≠ 0) :
    Allocator.alloc a size al = allocRec (35 - szBits size) a (szBits size) al := by
  rw [Allocator.alloc, if_neg (by simp [hal]), if_neg hal0]

/-- One `_alloc` frame that pops an aligned node from its own bin. -/
lemma allocRec_succ_pop (gas : Nat) (a : Allocator) (sz al addr : Nat)
    (rest : List Nat) (hsz : ¬ 32 ≤ sz - 3)
    (hscan : removeFirstAligned al (getBin a (sz - 3)) = some (addr, rest)) :
    allocRec (gas + 1) a sz al = (.ok addr, setBin a (sz - 3) rest) := by
  rw [allocRec, if_neg hsz, hscan]

/-- One `_alloc` frame whose own bin has no aligned node: the next class
serves the request and the upper half is pushed back. -/
lemma allocRec_succ_miss (gas : Nat) (a : Allocator) (sz al p : Nat)
    (a1 : Allocator) (hsz : ¬ 32 ≤ sz - 3)
    (hscan : removeFirstAligned al (getBin a (sz - 3)) = none)
    (hrec : allocRec gas a (sz + 1) al = (.ok p, a1)) :
    allocRec (gas + 1) a sz al = (.ok p, pushBin a1 (sz - 3) (p + 2 ^ sz)) := by
  rw [allocRec, if_neg hsz, hscan, hrec]

/-- One `_dealloc` frame that finds the buddy and recurses on the merge. -/
lemma deallocRec_succ_found (gas : Nat) (a : Allocator) (ptr sz : Nat)
    (rest : List Nat) (hsz : ¬ 32 ≤ sz - 3)
    (hscan : removeFirstEq (ptr ^^^ 2 ^ (sz % 64)) (getBin a (sz - 3)) = some rest) :
    deallocRec (gas + 1) a ptr sz =
      deallocRec gas (setBin a (sz - 3) rest)
        (min ptr (ptr ^^^ 2 ^ (sz % 64))) (sz + 1) := by
  rw [deallocRec, if_neg hsz, hscan]

/-- One `_dealloc` frame with no buddy in the bin: the block is pushed. -/
lemma deallocRec_succ_nobuddy (gas : Nat) (a : Allocator) (ptr sz : Nat)
    (hsz : ¬ 32 ≤ sz - 3) (h3 : ¬ sz < 3)
    (hscan : removeFirstEq (ptr ^^^ 2 ^ (sz % 64)) (getBin a (sz - 3)) = none) :
    deallocRec (gas + 1) a ptr sz = some (pushBin a (sz - 3) ptr) := by
  rw [deallocRec, if_neg hsz, hscan, if_neg h3]

/-- Constructing over `[2^(k+1), 2^(k+2))` inserts the single block
`2^(k+1)` into bin `k - 2`. -/
lemma new_power_region (k : Nat) (h3 : 3 ≤ k) (h33 : k ≤ 33) :
    Allocator.new (2 ^ (k + 1)) (2 ^ (k + 2)) =
      .ok (pushBin ⟨List.replicate 32 []⟩ (k - 2) (2 ^ (k + 1))) := by
  have hps : (2:Nat) ^ (k + 2) = 2 ^ (k + 1) * 2 := pow_succ 2 (k + 1)
  have hpos : (0:Nat) < 2 ^ (k + 1) := pow_pos (by omega) _
  have hle63 : (2:Nat) ^ (k + 1) ≤ 2 ^ 63 := Nat.pow_le_pow_right (by omega) (by omega)
  have hm : (2:Nat) ^ (k + 2) % U64 = 2 ^ (k + 2) := by
    rw [U64]
    exact Nat.mod_eq_of_lt (two_pow_lt_two_pow (k + 2) 64 (by omega))
  have hfuel : 2 ^ (k + 2) - 2 ^ (k + 1) = (2 ^ (k + 1) - 1) + 1 := by omega
  rw [Allocator.new, hfuel, initLoop]
  rw [if_pos (show (2:Nat) ^ (k + 1) < 2 ^ (k + 2) by omega)]
  rw [if_neg (show ¬ ((false : Bool) ∧ (2:Nat) ^ (k + 1) = 0) by simp)]
  rw [if_neg (show ¬ ((false : Bool) ∧ (2:Nat) ^ 63 < 2 ^ (k + 2) - 2 ^ (k + 1)) by simp)]
  rw [if_neg (show ¬ (2:Nat) ^ (k + 1) = 0 by omega)]
  rw [if_neg (show ¬ (2:Nat) ^ 63 < 2 ^ (k + 2) - 2 ^ (k + 1) by omega)]
  simp only
  rw [show (2:Nat) ^ (k + 2) - 2 ^ (k + 1) = 2 ^ (k + 1) by omega]
  rw [trailingZeros_two_pow, nextPow2_two_pow, ← hps, hm]
  rw [min_eq_left (show (2:Nat) ^ (k + 1) ≤ 2 ^ (k + 2) by omega)]
  rw [if_neg (show ¬ (2:Nat) ^ (k + 1) = 0 by omega)]
  rw [trailingZeros_two_pow]
  have h8 : (8:Nat) ≤ 2 ^ (k + 1) := by
    calc (8:Nat) = 2 ^ 3 := by norm_num
      _ ≤ 2 ^ (k + 1) := Nat.pow_le_pow_right (by omega) (by omega)
  rw [if_neg (show ¬ ((8:Nat) ≤ 2 ^ (k + 1) ∧ 32 ≤ k + 1 - 3) by
    rintro ⟨_, hx⟩; omega)]
  rw [if_pos h8]
  rw [if_neg (show ¬ ((false : Bool) ∧ U64 ≤ 2 ^ (k + 1) + 2 ^ (k + 1)) by simp)]
  rw [show (2:Nat) ^ (k + 1) + 2 ^ (k + 1) = 2 ^ (k + 2) by omega, hm]
  rw [initLoop_done false _ _ _ _ (lt_irrefl _)]
  rw [show k + 1 - 3 = k - 2 by omega]

lemma removeFirstEq_nil (v : Nat) : removeFirstEq v [] = none := rfl

lemma removeFirstAligned_nil (al : Nat) : removeFirstAligned al [] = none := rfl

/-- On a state whose bins for classes `k` and `k+1` are empty, pushing the
two buddy halves of `[2^(k+1), 2^(k+2))` back — in either order — merges
them into bin `k - 2`, from which an allocation of `2^(k+1)` is served
directly. -/
lemma dealloc_pair_coalesce (k : Nat) (hk3 : 3 ≤ k) (hk33 : k ≤ 33)
    (a : Allocator) (hw : WF a)
    (hb3 : getBin a (k - 3) = []) (hb2 : getBin a (k - 2) = [])
    (p q : Nat)
    (hpq : p = 2 ^ (k + 1) ∧ q = 2 ^ (k + 1) + 2 ^ k ∨
      p = 2 ^ (k + 1) + 2 ^ k ∧ q = 2 ^ (k + 1)) :
    ∃ a3 a4 a5,
      Allocator.dealloc a p (2 ^ k) (2 ^ k) = some a3 ∧
      Allocator.dealloc a3 q (2 ^ k) (2 ^ k) = some a4 ∧
      getBin a4 (k - 2) = [2 ^ (k + 1)] ∧
      Allocator.alloc a4 (2 ^ (k + 1)) (2 ^ (k + 1)) = (.ok (2 ^ (k + 1)), a5) ∧
      allocRecDepth (35 - szBits (2 ^ (k + 1))) a4 (szBits (2 ^ (k + 1)))
        (2 ^ (k + 1)) = 1 := by
  have hkpos : (0:Nat) < 2 ^ k := pow_pos (by omega) k
  have hk1pos : (0:Nat) < 2 ^ (k + 1) := pow_pos (by omega) (k + 1)
  have hps : (2:Nat) ^ (k + 1) = 2 ^ k * 2 := pow_succ 2 k
  have hk64 : k % 64 = k := Nat.mod_eq_of_lt (by omega)
  have hsb : szBits (2 ^ k) = k := szBits_two_pow k (by omega)
  have hsb1 : szBits (2 ^ (k + 1)) = k + 1 := szBits_two_pow (k + 1) (by omega)
  have hg1 : 35 - k = 34 - k + 1 := by omega
  have hg2 : 34 - k = 33 - k + 1 := by omega
  have hg3 : 35 - (k + 1) = 33 - k + 1 := by omega
  have hi1 : k + 1 - 3 = k - 2 := by omega
  have hx0 : 2 ^ (k + 1) ^^^ 2 ^ k = 2 ^ (k + 1) + 2 ^ k := by
    apply xor_two_pow_of_bit0
    rw [hps, Nat.mul_div_cancel_left 2 hkpos]
  have hx1 : (2 ^ (k + 1) + 2 ^ k) ^^^ 2 ^ k = 2 ^ (k + 1) := by
    have hb : (2 ^ (k + 1) + 2 ^ k) / 2 ^ k % 2 = 1 := by
      rw [show (2:Nat) ^ (k + 1) + 2 ^ k = 2 ^ k * 3 by omega,
        Nat.mul_div_cancel_left 3 hkpos]
    have h := (xor_two_pow_of_bit1 (2 ^ (k + 1) + 2 ^ k) k hb).2
    rw [h]
    omega
  have hbuddy : q ^^^ 2 ^ k = p := by
    rcases hpq with ⟨hp, hq⟩ | ⟨hp, hq⟩
    · rw [hp, hq, hx1]
    · rw [hp, hq, hx0]
  have hmin : min q p = 2 ^ (k + 1) := by
    rcases hpq with ⟨hp, hq⟩ | ⟨hp, hq⟩
    · rw [hp, hq]; exact Nat.min_eq_right (by omega)
    · rw [hp, hq]; exact Nat.min_eq_left (by omega)
  have hw3 : WF (pushBin a (k - 3) p) := WF_pushBin _ _ _ hw
  have hg63 : getBin (pushBin a (k - 3) p) (k - 3) = [p] := by
    rw [getBin_pushBin_same a _ _ hw (by omega), hb3]
  have hg72 : getBin (pushBin a (k - 3) p) (k - 2) = [] := by
    rw [getBin_pushBin_ne a _ _ _ (by omega), hb2]
  have hd1 : Allocator.dealloc a p (2 ^ k) (2 ^ k) = some (pushBin a (k - 3) p) := by
    rw [Allocator.dealloc, hsb, hg1]
    exact deallocRec_succ_nobuddy (34 - k) a p k (by omega) (by omega)
      (by rw [hb3, removeFirstEq_nil])
  have hw4p : WF (setBin (pushBin a (k - 3) p) (k - 3) []) := WF_setBin _ _ _ hw3
  have hg82 : getBin (setBin (pushBin a (k - 3) p) (k - 3) []) (k - 2) = [] := by
    rw [getBin_setBin_ne _ _ _ _ (by omega), hg72]
  have hd2 : Allocator.dealloc (pushBin a (k - 3) p) q (2 ^ k) (2 ^ k) =
      some (pushBin (setBin (pushBin a (k - 3) p) (k - 3) []) (k - 2)
        (2 ^ (k + 1))) := by
    rw [Allocator.dealloc, hsb, hg1]
    rw [deallocRec_succ_found (34 - k) (pushBin a (k - 3) p) q k [] (by omega) (by
      rw [hk64, hbuddy, hg63]
      exact removeFirstEq_cons_self p [])]
    rw [hk64, hbuddy, hmin, hg2]
    rw [deallocRec_succ_nobuddy (33 - k) _ _ (k + 1) (by omega) (by omega) (by
      rw [hi1, hg82, removeFirstEq_nil])]
    rw [hi1]
  have hw4 : WF (pushBin (setBin (pushBin a (k - 3) p) (k - 3) []) (k - 2)
      (2 ^ (k + 1))) := WF_pushBin _ _ _ hw4p
  have hg94 : getBin (pushBin (setBin (pushBin a (k - 3) p) (k - 3) []) (k - 2)
      (2 ^ (k + 1))) (k - 2) = [2 ^ (k + 1)] := by
    rw [getBin_pushBin_same _ _ _ hw4p (by omega), hg82]
  have hal : Allocator.alloc (pushBin (setBin (pushBin a (k - 3) p) (k - 3) [])
        (k - 2) (2 ^ (k + 1))) (2 ^ (k + 1)) (2 ^ (k + 1)) =
      (.ok (2 ^ (k + 1)), setBin (pushBin (setBin (pushBin a (k - 3) p) (k - 3) [])
        (k - 2) (2 ^ (k + 1))) (k + 1 - 3) []) := by
    rw [alloc_eq_allocRec _ _ _ (isPow2_two_pow (k + 1)) (by omega), hsb1, hg3]
    exact allocRec_succ_pop (33 - k) _ (k + 1) (2 ^ (k + 1)) (2 ^ (k + 1)) []
      (by omega) (by
        rw [hi1, hg94]
        exact removeFirstAligned_cons_aligned _ _ _ (by
          rw [Nat.div_mul_cancel dvd_rfl]))
  have hdep : allocRecDepth (35 - szBits (2 ^ (k + 1)))
      (pushBin (setBin (pushBin a (k - 3) p) (k - 3) []) (k - 2) (2 ^ (k + 1)))
      (szBits (2 ^ (k + 1))) (2 ^ (k + 1)) = 1 := by
    rw [hsb1, hg3, allocRecDepth, if_neg (show ¬ 32 ≤ k + 1 - 3 by omega)]
    rw [hi1, hg94]
    rw [removeFirstAligned_cons_aligned _ _ _ (by rw [Nat.div_mul_cancel dvd_rfl])]
  exact ⟨pushBin a (k - 3) p,
    pushBin (setBin (pushBin a (k - 3) p) (k - 3) []) (k - 2) (2 ^ (k + 1)),
    setBin (pushBin (setBin (pushBin a (k - 3) p) (k - 3) []) (k - 2)
      (2 ^ (k + 1))) (k + 1 - 3) [],
    hd1, hd2, hg94, hal, hdep⟩

/-- C7: buddy coalescing.  For every size class `2^k` (3 ≤ k ≤ 33, the
classes the bin array can host), on the region `[2^(k+1), 2^(k+2))` two
allocations of size and alignment `2^k` return the buddy pair
`2^(k+1)` and `2^(k+1) + 2^k` (addresses differing exactly in bit `k`);
deallocating both with their original layout, in either order, leaves the
single merged block `min = 2^(k+1)` in bin `k-2`, and a subsequent
allocation of size `2^(k+1)` with matching alignment returns that merged
address in a single `_alloc` frame — without recursing to a larger size
class. -/
theorem C7_buddy_coalescing (k : Nat) (hk3 : 3 ≤ k) (hk33 : k ≤ 33) :
    ∃ a0 a1 a2,
      Allocator.new (2 ^ (k + 1)) (2 ^ (k + 2)) = .ok a0 ∧
      Allocator.alloc a0 (2 ^ k) (2 ^ k) = (.ok (2 ^ (k + 1)), a1) ∧
      Allocator.alloc a1 (2 ^ k) (2 ^ k) = (.ok (2 ^ (k + 1) + 2 ^ k), a2) ∧
      2 ^ (k + 1) ^^^ 2 ^ k = 2 ^ (k + 1) + 2 ^ k ∧
      (∀ p q, p = 2 ^ (k + 1) ∧ q = 2 ^ (k + 1) + 2 ^ k ∨
          p = 2 ^ (k + 1) + 2 ^ k ∧ q = 2 ^ (k + 1) →
        ∃ a3 a4 a5,
          Allocator.dealloc a2 p (2 ^ k) (2 ^ k) = some a3 ∧
          Allocator.dealloc a3 q (2 ^ k) (2 ^ k) = some a4 ∧
          getBin a4 (k - 2) = [2 ^ (k + 1)] ∧
          Allocator.alloc a4 (2 ^ (k + 1)) (2 ^ (k + 1)) =
            (.ok (2 ^ (k + 1)), a5) ∧
          allocRecDepth (35 - szBits (2 ^ (k + 1))) a4 (szBits (2 ^ (k + 1)))
            (2 ^ (k + 1)) = 1) := by
  have hkpos : (0:Nat) < 2 ^ k := pow_pos (by omega) k
  have hps : (2:Nat) ^ (k + 1) = 2 ^ k * 2 := pow_succ 2 k
  have hdvd : (2:Nat) ^ k ∣ 2 ^ (k + 1) := pow_dvd_pow 2 (by omega)
  have hsb : szBits (2 ^ k) = k := szBits_two_pow k (by omega)
  have hg1 : 35 - k = 34 - k + 1 := by omega
  have hg2 : 34 - k = 33 - k + 1 := by omega
  have hi1 : k + 1 - 3 = k - 2 := by omega
  have hwE : WF (⟨List.replicate 32 []⟩ : Allocator) := WF_empty
  have hw0 : WF (pushBin ⟨List.replicate 32 []⟩ (k - 2) (2 ^ (k + 1))) :=
    WF_pushBin _ _ _ hwE
  have hg02 : getBin (pushBin ⟨List.replicate 32 []⟩ (k - 2) (2 ^ (k + 1)))
      (k - 2) = [2 ^ (k + 1)] := by
    rw [getBin_pushBin_same _ _ _ hwE (by omega), getBin_empty]
  have hg03 : getBin (pushBin ⟨List.replicate 32 []⟩ (k - 2) (2 ^ (k + 1)))
      (k - 3) = [] := by
    rw [getBin_pushBin_ne _ _ _ _ (by omega), getBin_empty]
  have hw0s : WF (setBin (pushBin ⟨List.replicate 32 []⟩ (k - 2) (2 ^ (k + 1)))
      (k - 2) []) := WF_setBin _ _ _ hw0
  have halloc1 : Allocator.alloc (pushBin ⟨List.replicate 32 []⟩ (k - 2)
        (2 ^ (k + 1))) (2 ^ k) (2 ^ k) =
      (.ok (2 ^ (k + 1)), pushBin (setBin (pushBin ⟨List.replicate 32 []⟩
        (k - 2) (2 ^ (k + 1))) (k - 2) []) (k - 3) (2 ^ (k + 1) + 2 ^ k)) := by
    rw [alloc_eq_allocRec _ _ _ (isPow2_two_pow k) (by omega), hsb, hg1]
    have hinner : allocRec (34 - k) (pushBin ⟨List.replicate 32 []⟩ (k - 2)
          (2 ^ (k + 1))) (k + 1) (2 ^ k) =
        (.ok (2 ^ (k + 1)), setBin (pushBin ⟨List.replicate 32 []⟩ (k - 2)
          (2 ^ (k + 1))) (k - 2) []) := by
      rw [hg2]
      have h := allocRec_succ_pop (33 - k) (pushBin ⟨List.replicate 32 []⟩
        (k - 2) (2 ^ (k + 1))) (k + 1) (2 ^ k) (2 ^ (k + 1)) [] (by omega) (by
          rw [hi1, hg02]
          exact removeFirstAligned_cons_aligned _ _ _ (by
            rw [Nat.div_mul_cancel hdvd]))
      rwa [hi1] at h
    exact allocRec_succ_miss (34 - k) _ k (2 ^ k) (2 ^ (k + 1)) _ (by omega)
      (by rw [hg03, removeFirstAligned_nil]) hinner
  have hg13 : getBin (pushBin (setBin (pushBin ⟨List.replicate 32 []⟩ (k - 2)
      (2 ^ (k + 1))) (k - 2) []) (k - 3) (2 ^ (k + 1) + 2 ^ k)) (k - 3) =
      [2 ^ (k + 1) + 2 ^ k] := by
    rw [getBin_pushBin_same _ _ _ hw0s (by omega),
      getBin_setBin_ne _ _ _ _ (by omega), hg03]
  have hw1 : WF (pushBin (setBin (pushBin ⟨List.replicate 32 []⟩ (k - 2)
      (2 ^ (k + 1))) (k - 2) []) (k - 3) (2 ^ (k + 1) + 2 ^ k)) :=
    WF_pushBin _ _ _ hw0s
  have halloc2 : Allocator.alloc (pushBin (setBin (pushBin
        ⟨List.replicate 32 []⟩ (k - 2) (2 ^ (k + 1))) (k - 2) []) (k - 3)
        (2 ^ (k + 1) + 2 ^ k)) (2 ^ k) (2 ^ k) =
      (.ok (2 ^ (k + 1) + 2 ^ k), setBin (pushBin (setBin (pushBin
        ⟨List.replicate 32 []⟩ (k - 2) (2 ^ (k + 1))) (k - 2) []) (k - 3)
        (2 ^ (k + 1) + 2 ^ k)) (k - 3) []) := by
    rw [alloc_eq_allocRec _ _ _ (isPow2_two_pow k) (by omega), hsb, hg1]
    exact allocRec_succ_pop (34 - k) _ k (2 ^ k) (2 ^ (k + 1) + 2 ^ k) []
      (by omega) (by
        rw [hg13]
        exact removeFirstAligned_cons_aligned _ _ _ (by
          rw [Nat.div_mul_cancel (dvd_add hdvd dvd_rfl)]))
  have hx0 : 2 ^ (k + 1) ^^^ 2 ^ k = 2 ^ (k + 1) + 2 ^ k := by
    apply xor_two_pow_of_bit0
    rw [hps, Nat.mul_div_cancel_left 2 hkpos]
  have hw2 : WF (setBin (pushBin (setBin (pushBin ⟨List.replicate 32 []⟩
      (k - 2) (2 ^ (k + 1))) (k - 2) []) (k - 3) (2 ^ (k + 1) + 2 ^ k))
      (k - 3) []) := WF_setBin _ _ _ hw1
  have hg23 : getBin (setBin (pushBin (setBin (pushBin ⟨List.replicate 32 []⟩
      (k - 2) (2 ^ (k + 1))) (k - 2) []) (k - 3) (2 ^ (k + 1) + 2 ^ k))
      (k - 3) []) (k - 3) = [] := getBin_setBin_same _ _ _ hw1 (by omega)
  have hg22 : getBin (setBin (pushBin (setBin (pushBin ⟨List.replicate 32 []⟩
      (k - 2) (2 ^ (k + 1))) (k - 2) []) (k - 3) (2 ^ (k + 1) + 2 ^ k))
      (k - 3) []) (k - 2) = [] := by
    rw [getBin_setBin_ne _ _ _ _ (by omega),
      getBin_pushBin_ne _ _ _ _ (by omega),
      getBin_setBin_same _ _ _ hw0 (by omega)]
  refine ⟨_, _, _, new_power_region k hk3 hk33, halloc1, halloc2, hx0, ?_⟩
  intro p q hpq
  exact dealloc_pair_coalesce k hk3 hk33 _ hw2 hg23 hg22 p q hpq

theorem C7_buddy_coalescing_witness :
    3 ≤ 3 ∧ 3 ≤ 33 ∧
      ∃ a0 a1 a2,
        Allocator.new (2 ^ (3 + 1)) (2 ^ (3 + 2)) = .ok a0 ∧
        Allocator.alloc a0 (2 ^ 3) (2 ^ 3) = (.ok (2 ^ (3 + 1)), a1) ∧
        Allocator.alloc a1 (2 ^ 3) (2 ^ 3) =
          (.ok (2 ^ (3 + 1) + 2 ^ 3), a2) ∧
        2 ^ (3 + 1) ^^^ 2 ^ 3 = 2 ^ (3 + 1) + 2 ^ 3 ∧
        (∀ p q, p = 2 ^ (3 + 1) ∧ q = 2 ^ (3 + 1) + 2 ^ 3 ∨
            p = 2 ^ (3 + 1) + 2 ^ 3 ∧ q = 2 ^ (3 + 1) →
          ∃ a3 a4 a5,
            Allocator.dealloc a2 p (2 ^ 3) (2 ^ 3) = some a3 ∧
            Allocator.dealloc a3 q (2 ^ 3) (2 ^ 3) = some a4 ∧
            getBin a4 (3 - 2) = [2 ^ (3 + 1)] ∧
            Allocator.alloc a4 (2 ^ (3 + 1)) (2 ^ (3 + 1)) =
              (.ok (2 ^ (3 + 1)), a5) ∧
            allocRecDepth (35 - szBits (2 ^ (3 + 1))) a4
              (szBits (2 ^ (3 + 1))) (2 ^ (3 + 1)) = 1) :=
  ⟨by decide, by decide, C7_buddy_coalescing 3 (by decide) (by decide)⟩

/-! ### Claim C8: the buddy invariant on reachable states -/

/-- The shape of every block the engines handle below class 4: positive,
and when under-aligned (fewer than 3 trailing zero bits) its residue
mod 16 is exactly its alignment — the footprint of having been split off
a 16-aligned block. -/
def Tpat (x : Nat) : Prop :=
  0 < x ∧ (trailingZeros x < 3 → x % 16 = 2 ^ trailingZeros x)

/-- The state invariant of the bin array: well-formed, no free buddy
pair, every bin above 0 holds blocks aligned to its class, and bin 0
holds `Tpat` blocks. -/
def BinsInv (a : Allocator) : Prop :=
  WF a ∧ XorInv a ∧
    (∀ i, 1 ≤ i → i < 32 → ∀ x ∈ getBin a i, 0 < x ∧ 2 ^ (i + 3) ∣ x) ∧
    (∀ x ∈ getBin a 0, Tpat x)

/-- What holds of every outstanding allocation `(p, size)`: the `Tpat`
shape, plus class alignment whenever the size class is at least 4. -/
def Apat (p size : Nat) : Prop :=
  Tpat p ∧ (4 ≤ szBits size → 2 ^ szBits size ∣ p)

/-- A positive multiple of 8 has at least 3 trailing zeros. -/
lemma tz_ge_three (x : Nat) (hx : 0 < x) (h8 : (8:Nat) ∣ x) :
    ¬ trailingZeros x < 3 := by
  intro hlt
  have hm := (trailingZeros_eq_iff x (trailingZeros x) hx).mp rfl
  have hdvd : (2:Nat) ^ (trailingZeros x + 1) ∣ x := by
    refine dvd_trans ?_ h8
    rw [show (8:Nat) = 2 ^ 3 by norm_num]
    exact pow_dvd_pow 2 (by omega)
  have h0 : x % 2 ^ (trailingZeros x + 1) = 0 := by
    obtain ⟨c, hc⟩ := hdvd
    nth_rewrite 1 [hc]
    exact Nat.mul_mod_right _ _
  rw [h0] at hm
  have hp : (0:Nat) < 2 ^ trailingZeros x := pow_pos (by omega) _
  omega

/-- The source's alignment test names divisibility. -/
lemma dvd_of_alignTest (x al : Nat) (h : x / al * al = x) : al ∣ x :=
  Dvd.intro_left (x / al) h

lemma alignTest_of_dvd (x al : Nat) (h : al ∣ x) : x / al * al = x :=
  Nat.div_mul_cancel h

/-- `is_power_of_two` rules out 0. -/
lemma isPow2_ne_zero (al : Nat) (h : isPow2 al = true) : al ≠ 0 := by
  rw [isPow2] at h
  simp at h
  exact h.1

/-- A push preserves the buddy invariant as long as the pushed block's
own buddy is absent from the target bin. -/
lemma xorInv_push (a : Allocator) (b v : Nat) (hw : WF a) (hb : b < 32)
    (hxi : XorInv a) (hnv : (v ^^^ 2 ^ (b + 3)) ∉ getBin a b) :
    XorInv (pushBin a b v) := by
  intro i hi x hx hy
  by_cases hib : b = i
  · subst hib
    rw [getBin_pushBin_same a _ _ hw hb] at hx hy
    rcases List.mem_cons.mp hx with hxv | hxold
    · subst hxv
      rcases List.mem_cons.mp hy with hyv | hyold
      · exact xor_two_pow_ne x (b + 3) hyv
      · exact hnv hyold
    · rcases List.mem_cons.mp hy with hyv | hyold
      · have hx2 : x = v ^^^ 2 ^ (b + 3) := by
          rw [← hyv, Nat.xor_cancel_right]
        rw [hx2] at hxold
        exact hnv hxold
      · exact hxi b hb x hxold hyold
  · rw [getBin_pushBin_ne a _ _ _ hib] at hx hy
    exact hxi i hi x hx hy

/-- Replacing a bin by a selection of its own entries preserves the
buddy invariant. -/
lemma xorInv_setBin_sub (a : Allocator) (b : Nat) (l : List Nat) (hw : WF a)
    (hxi : XorInv a) (hsub : ∀ x ∈ l, x ∈ getBin a b) :
    XorInv (setBin a b l) := by
  intro i hi x hx hy
  by_cases hib : b = i
  · subst hib
    rw [getBin_setBin_same a _ _ hw hi] at hx hy
    exact hxi b hi x (hsub x hx) (hsub _ hy)
  · rw [getBin_setBin_ne a _ _ _ hib] at hx hy
    exact hxi i hi x hx hy

/-- Replacing a bin by a selection of its own entries preserves the full
state invariant. -/
lemma binsInv_setBin_sub (a : Allocator) (b : Nat) (l : List Nat)
    (hinv : BinsInv a) (hsub : ∀ x ∈ l, x ∈ getBin a b) :
    BinsInv (setBin a b l) := by
  obtain ⟨hw, hxi, hpal, hT⟩ := hinv
  refine ⟨WF_setBin _ _ _ hw, xorInv_setBin_sub a b l hw hxi hsub, ?_, ?_⟩
  · intro i h1 hi x hx
    by_cases hib : b = i
    · subst hib
      rw [getBin_setBin_same a _ _ hw hi] at hx
      exact hpal b h1 hi x (hsub x hx)
    · rw [getBin_setBin_ne a _ _ _ hib] at hx
      exact hpal i h1 hi x hx
  · intro x hx
    by_cases hib : b = 0
    · subst hib
      rw [getBin_setBin_same a _ _ hw (by omega)] at hx
      exact hT x (hsub x hx)
    · rw [getBin_setBin_ne a _ _ _ hib] at hx
      exact hT x hx

/-- A push preserves the full state invariant when the pushed block's
buddy is absent and the block fits its bin's shape constraint. -/
lemma binsInv_pushBin (a : Allocator) (b v : Nat) (hinv : BinsInv a)
    (hb : b < 32)
    (hxv : (v ^^^ 2 ^ (b + 3)) ∉ getBin a b)
    (hv : 0 < v)
    (hal : 1 ≤ b → 2 ^ (b + 3) ∣ v)
    (hTv : b = 0 → trailingZeros v < 3 → v % 16 = 2 ^ trailingZeros v) :
    BinsInv (pushBin a b v) := by
  obtain ⟨hw, hxi, hpal, hT⟩ := hinv
  refine ⟨WF_pushBin _ _ _ hw, xorInv_push a b v hw hb hxi hxv, ?_, ?_⟩
  · intro i h1 hi x hx
    by_cases hib : b = i
    · subst hib
      rw [getBin_pushBin_same a _ _ hw hb] at hx
      rcases List.mem_cons.mp hx with hxv2 | hxold
      · subst hxv2
        exact ⟨hv, hal h1⟩
      · exact hpal b h1 hi x hxold
    · rw [getBin_pushBin_ne a _ _ _ hib] at hx
      exact hpal i h1 hi x hx
  · intro x hx
    by_cases hib : b = 0
    · subst hib
      rw [getBin_pushBin_same a _ _ hw hb] at hx
      rcases List.mem_cons.mp hx with hxv2 | hxold
      · subst hxv2
        exact ⟨hv, hTv rfl⟩
      · exact hT x hxold
    · rw [getBin_pushBin_ne a _ _ _ hib] at hx
      exact hT x hx

/-- The bins of a freshly constructed allocator satisfy the state
invariant, under the release semantics, for any region bounded by
`2 ^ 63` — including a zero `start`. -/
lemma new_ok_binsInv (s e : Nat) (he : e ≤ 2 ^ 63) (a : Allocator)
    (h : Allocator.new s e = .ok a) : BinsInv a := by
  have hpost : WF a ∧ InitPost e 0 a ∨ a = ⟨List.replicate 32 []⟩ := by
    rw [Allocator.new] at h
    rcases Nat.lt_or_ge s e with hse | hse
    swap
    · rw [initLoop_done false _ _ _ _ (by omega)] at h
      simp only [Except.ok.injEq] at h
      exact Or.inr h.symm
    rcases Nat.eq_zero_or_pos s with hs0 | hs0
    · subst hs0
      obtain ⟨f, hf⟩ : ∃ f, e - 0 = f + 1 := ⟨e - 1, by omega⟩
      rw [hf, initLoop, if_pos (by omega : 0 < e)] at h
      rw [if_neg (show ¬ ((false : Bool) ∧ (0:Nat) = 0) by simp)] at h
      rw [if_neg (show ¬ ((false : Bool) ∧ 2 ^ 63 < e - 0) by simp)] at h
      rw [if_pos (rfl : (0:Nat) = 0)] at h
      rw [if_neg (show ¬ 2 ^ 63 < e - 0 by omega)] at h
      simp only at h
      rcases Nat.eq_zero_or_pos (nextPow2 (e - 0) * 2 % U64) with ha2 | ha2
      · rw [ha2, Nat.min_zero, if_pos rfl] at h
        simp at h
      · rw [Nat.min_eq_left (by omega)] at h
        rw [if_neg (by omega : ¬ (1:Nat) = 0)] at h
        rw [if_neg (show ¬ ((8:Nat) ≤ 1 ∧ 32 ≤ trailingZeros 1 - 3) by
          rintro ⟨h8, _⟩; omega)] at h
        rw [if_neg (by omega : ¬ (8:Nat) ≤ 1)] at h
        rw [if_neg (show ¬ ((false : Bool) ∧ U64 ≤ 0 + 1) by simp)] at h
        rw [show (0 + 1) % U64 = 1 from Nat.mod_eq_of_lt (by rw [U64]; norm_num)] at h
        obtain ⟨hw, hp, _⟩ := initLoop_invariant false e 0 he f 1
          ⟨List.replicate 32 []⟩ a (by omega) (by omega) WF_empty
          (initInv_empty 1 e 0) h
        exact Or.inl ⟨hw, hp⟩
    · obtain ⟨hw, hp, _⟩ := initLoop_invariant false e 0 he (e - s) s
        ⟨List.replicate 32 []⟩ a hs0 (by omega) WF_empty
        (initInv_empty s e 0) h
      exact Or.inl ⟨hw, hp⟩
  rcases hpost with ⟨hw, hbound, hxi⟩ | hempty
  · refine ⟨hw, hxi, ?_, ?_⟩
    · intro i h1 hi x hx
      obtain ⟨h0, _, _, hdvd⟩ := hbound i hi x hx
      exact ⟨h0, hdvd⟩
    · intro x hx
      obtain ⟨h0, _, _, hdvd⟩ := hbound 0 (by omega) x hx
      refine ⟨h0, fun hlt => absurd hlt (tz_ge_three x h0 ?_)⟩
      rw [show (8:Nat) = 2 ^ 3 by norm_num]
      exact hdvd
  · subst hempty
    refine ⟨WF_empty, ?_, ?_, ?_⟩
    · intro i hi x hx
      rw [getBin_empty] at hx
      exact absurd hx (List.not_mem_nil x)
    · intro i _ hi x hx
      rw [getBin_empty] at hx
      exact absurd hx (List.not_mem_nil x)
    · intro x hx
      rw [getBin_empty] at hx
      exact absurd hx (List.not_mem_nil x)

/-- Re-attaching the upper half of a split undoes the xor with its bit. -/
lemma xor_unsplit (p t : Nat) (h : 2 ^ (t + 1) ∣ p) :
    (p + 2 ^ t) ^^^ 2 ^ t = p := by
  obtain ⟨q, hq⟩ := h
  have hv : p + 2 ^ t = 2 ^ t * (2 * q + 1) := by rw [hq, pow_succ]; ring
  have hbv : (p + 2 ^ t) / 2 ^ t % 2 = 1 := by
    rw [hv, Nat.mul_div_cancel_left _ (pow_pos (by omega) t)]
    omega
  rw [(xor_two_pow_of_bit1 (p + 2 ^ t) t hbv).2, Nat.add_sub_cancel]

/-- What a successful `_alloc` guarantees: the invariant still holds, the
returned block is aligned to the request and to its class (from class 4
up), has the `Tpat` shape, is 16-aligned whenever the entry frame's own
bin-0 scan failed, and no bin below the entry class was touched. -/
lemma allocRec_ok_inv (al : Nat) (halp : isPow2 al = true) : ∀ (gas : Nat)
    (a : Allocator) (sz p : Nat) (a1 : Allocator),
      BinsInv a →
      allocRec gas a sz al = (.ok p, a1) →
      BinsInv a1 ∧ 0 < p ∧ al ∣ p ∧ Tpat p ∧
        (4 ≤ sz → 2 ^ sz ∣ p) ∧
        (removeFirstAligned al (getBin a 0) = none → 16 ∣ p) ∧
        (∀ j, j + 3 < sz → getBin a1 j = getBin a j) := by
  intro gas
  induction gas with
  | zero =>
    intro a sz p a1 hinv h
    rw [allocRec] at h
    simp at h
  | succ gas ih =>
    intro a sz p a1 hinv h
    obtain ⟨hw, hxi, hpal, hT⟩ := hinv
    have hinv2 : BinsInv a := ⟨hw, hxi, hpal, hT⟩
    rcases Classical.em (32 ≤ sz - 3) with hoob | hoob
    · rw [allocRec, if_pos hoob] at h
      simp at h
    have hszlt : sz - 3 < 32 := by omega
    rcases hscan : removeFirstAligned al (getBin a (sz - 3)) with _ | pr
    · -- this frame's scan missed: the next class serves the request
      rcases hrec : allocRec gas a (sz + 1) al with ⟨r, arec⟩
      rcases r with err | p2
      · rw [allocRec, if_neg hoob, hscan, hrec] at h
        simp at h
      rw [allocRec_succ_miss gas a sz al p2 arec hoob hscan hrec] at h
      simp only [Prod.mk.injEq, Except.ok.injEq] at h
      obtain ⟨hpp, ha1⟩ := h
      subst p2
      obtain ⟨hInvRec, hp0, halp2, hTp, hdvd1, hE, hTouch⟩ :=
        ih a (sz + 1) p arec hinv2 hrec
      have hmiss : p ∉ getBin a (sz - 3) := by
        intro hmem
        exact absurd (alignTest_of_dvd p al halp2)
          ((removeFirstAligned_none al _).mp hscan p hmem)
      have hvpos : 0 < p + 2 ^ sz := by positivity
      have hbinv1 : BinsInv (pushBin arec (sz - 3) (p + 2 ^ sz)) := by
        rcases Nat.lt_or_ge sz 4 with hsz4 | hsz4
        · -- entry class at most 3: the push lands in bin 0
          have hz : sz - 3 = 0 := by omega
          rw [hz] at hscan hmiss ⊢
          have h16 : 16 ∣ p := hE hscan
          have hpm : p % 16 = 0 := by omega
          rcases Nat.lt_or_ge sz 3 with hsz3 | hsz3
          · -- sub-minimum classes: the buddy shape is impossible in bin 0
            have htzv : trailingZeros (p + 2 ^ sz) = sz := by
              refine (trailingZeros_eq_iff _ sz (by positivity)).mpr ?_
              interval_cases sz <;> omega
            refine binsInv_pushBin arec 0 (p + 2 ^ sz) hInvRec (by omega)
              ?_ hvpos (by omega) ?_
            · have hxor : (p + 2 ^ sz) ^^^ 2 ^ (0 + 3) = p + 2 ^ sz + 8 := by
                rw [show (0:Nat) + 3 = 3 from rfl]
                refine xor_two_pow_of_bit0 _ 3 ?_
                interval_cases sz <;> omega
              rw [hxor]
              intro hmem
              obtain ⟨hw0, hTw⟩ := hInvRec.2.2.2 _ hmem
              have htzw : trailingZeros (p + 2 ^ sz + 8) = sz := by
                refine (trailingZeros_eq_iff _ sz (by omega)).mpr ?_
                interval_cases sz <;> omega
              have := hTw (by omega)
              rw [htzw] at this
              interval_cases sz <;> omega
            · intro _ _
              rw [htzv]
              interval_cases sz <;> omega
          · -- entry class exactly 3
            have hsz3e : sz = 3 := by omega
            subst hsz3e
            have h16p : (2:Nat) ^ 4 ∣ p := by
              rw [show (2:Nat) ^ 4 = 16 by norm_num]
              exact h16
            have htzv : trailingZeros (p + 2 ^ 3) = 3 := by
              refine (trailingZeros_eq_iff _ 3 (by positivity)).mpr ?_
              have : (2:Nat) ^ 3 = 8 := by norm_num
              omega
            refine binsInv_pushBin arec 0 (p + 2 ^ 3) hInvRec (by omega)
              ?_ hvpos (by omega) ?_
            · rw [show (0:Nat) + 3 = 3 from rfl, xor_unsplit p 3 h16p]
              rw [hTouch 0 (by omega)]
              exact hmiss
            · intro _ hlt
              rw [htzv] at hlt
              omega
        · -- classes 4 and up: buddy is the returned block, absent below
          have hdp : (2:Nat) ^ (sz + 1) ∣ p := hdvd1 (by omega)
          have hdps : (2:Nat) ^ sz ∣ p :=
            dvd_trans (pow_dvd_pow 2 (Nat.le_succ sz)) hdp
          refine binsInv_pushBin arec (sz - 3) (p + 2 ^ sz) hInvRec hszlt
            ?_ hvpos ?_ (fun h0 => absurd h0 (by omega))
          · rw [show sz - 3 + 3 = sz by omega, xor_unsplit p sz hdp]
            rw [hTouch (sz - 3) (by omega)]
            exact hmiss
          · intro _
            rw [show sz - 3 + 3 = sz by omega]
            exact dvd_add hdps dvd_rfl
      subst ha1
      refine ⟨hbinv1, hp0, halp2, hTp, ?_, hE, ?_⟩
      · intro h4
        exact dvd_trans (pow_dvd_pow 2 (Nat.le_succ sz)) (hdvd1 (by omega))
      · intro j hj
        rw [getBin_pushBin_ne arec _ _ _ (by omega)]
        exact hTouch j (by omega)
    · -- this frame's scan found an aligned block: it is popped
      rcases pr with ⟨addr, rest⟩
      rw [allocRec_succ_pop gas a sz al addr rest hoob hscan] at h
      simp only [Prod.mk.injEq, Except.ok.injEq] at h
      obtain ⟨hpp, ha1⟩ := h
      subst addr
      subst ha1
      obtain ⟨hmem, haligned, hsub⟩ :=
        removeFirstAligned_some al (getBin a (sz - 3)) p rest hscan
      have hbinv1 : BinsInv (setBin a (sz - 3) rest) :=
        binsInv_setBin_sub a (sz - 3) rest hinv2 hsub
      have haldvd : al ∣ p := dvd_of_alignTest p al haligned
      rcases Nat.lt_or_ge sz 4 with hsz4 | hsz4
      · -- popped from bin 0
        have hz : sz - 3 = 0 := by omega
        rw [hz] at hmem hscan
        obtain ⟨hp0, hTp⟩ := hT p hmem
        refine ⟨hbinv1, hp0, haldvd, ⟨hp0, hTp⟩, fun h4 => absurd h4 (by omega),
          ?_, ?_⟩
        · intro hnone
          rw [hnone] at hscan
          exact absurd hscan (by simp)
        · intro j hj
          exact getBin_setBin_ne a _ _ _ (by omega)
      · -- popped from a class-aligned bin
        obtain ⟨hp0, hdvd⟩ := hpal (sz - 3) (by omega) hszlt p hmem
        rw [show sz - 3 + 3 = sz by omega] at hdvd
        have h8 : (8:Nat) ∣ p := by
          refine dvd_trans ?_ hdvd
          rw [show (8:Nat) = 2 ^ 3 by norm_num]
          exact pow_dvd_pow 2 (by omega)
        refine ⟨hbinv1, hp0, haldvd,
          ⟨hp0, fun hlt => absurd hlt (tz_ge_three p hp0 h8)⟩,
          fun _ => hdvd, ?_, ?_⟩
        · intro _
          refine dvd_trans ?_ hdvd
          rw [show (16:Nat) = 2 ^ 4 by norm_num]
          exact pow_dvd_pow 2 (by omega)
        · intro j hj
          exact getBin_setBin_ne a _ _ _ (by omega)

/-- One `_dealloc` frame on a sub-minimum class with no buddy: the raw
`sz - 3` push wraps and the bin bounds check aborts. -/
lemma deallocRec_succ_small (gas : Nat) (a : Allocator) (ptr sz : Nat)
    (hsz : ¬ 32 ≤ sz - 3) (h3 : sz < 3)
    (hscan : removeFirstEq (ptr ^^^ 2 ^ (sz % 64)) (getBin a (sz - 3)) = none) :
    deallocRec (gas + 1) a ptr sz = none := by
  rw [deallocRec, if_neg hsz, hscan, if_pos h3]

/-- A completed `_dealloc` never touches a bin below its entry class. -/
lemma deallocRec_touch (gas : Nat) : ∀ (a : Allocator) (ptr sz : Nat)
    (a1 : Allocator) (j : Nat), deallocRec gas a ptr sz = some a1 →
    j + 3 < sz → getBin a1 j = getBin a j := by
  induction gas with
  | zero =>
    intro a ptr sz a1 j h hj
    rw [deallocRec] at h
    simp only [Option.some.injEq] at h
    rw [h]
  | succ gas ih =>
    intro a ptr sz a1 j h hj
    rcases Classical.em (32 ≤ sz - 3) with hoob | hoob
    · rw [deallocRec, if_pos hoob] at h
      simp only [Option.some.injEq] at h
      rw [h]
    rcases hscan : removeFirstEq (ptr ^^^ 2 ^ (sz % 64)) (getBin a (sz - 3))
      with _ | rest
    · rcases Classical.em (sz < 3) with h3 | h3
      · rw [deallocRec_succ_small gas a ptr sz hoob h3 hscan] at h
        simp at h
      · rw [deallocRec_succ_nobuddy gas a ptr sz hoob h3 hscan] at h
        simp only [Option.some.injEq] at h
        rw [← h, getBin_pushBin_ne a _ _ _ (by omega)]
    · rw [deallocRec_succ_found gas a ptr sz rest hoob hscan] at h
      rw [ih _ _ _ _ j h (by omega), getBin_setBin_ne a _ _ _ (by omega)]

/-- An odd-bit divisibility: a block divisible by the next class has a
clear class bit. -/
lemma bit0_of_succ_dvd (x t : Nat) (h : 2 ^ (t + 1) ∣ x) :
    x / 2 ^ t % 2 = 0 := by
  obtain ⟨q, hq⟩ := h
  have hx : x = 2 ^ t * (2 * q) := by rw [hq, pow_succ]; ring
  rw [hx, Nat.mul_div_cancel_left _ (pow_pos (by omega) t)]
  omega

lemma eight_dvd_of_tz_ge (x : Nat) (hx : 0 < x) (h : 3 ≤ trailingZeros x) :
    (8:Nat) ∣ x :=
  dvd_trans (by rw [show (8:Nat) = 2 ^ 3 by norm_num]; exact pow_dvd_pow 2 h)
    ((trailingZeros_spec x hx).1)

/-- What a completed `_dealloc` guarantees: when the freed block is
positive, has the `Tpat` shape, and is class-aligned from class 4 up,
the state invariant is preserved. -/
lemma deallocRec_inv : ∀ (gas : Nat) (a : Allocator) (ptr sz : Nat)
    (a1 : Allocator), BinsInv a → 0 < ptr →
    (trailingZeros ptr < 3 → ptr % 16 = 2 ^ trailingZeros ptr) →
    (4 ≤ sz → 2 ^ sz ∣ ptr) →
    deallocRec gas a ptr sz = some a1 → BinsInv a1 := by
  intro gas
  induction gas with
  | zero =>
    intro a ptr sz a1 hinv _ _ _ h
    rw [deallocRec] at h
    simp only [Option.some.injEq] at h
    rw [← h]
    exact hinv
  | succ gas ih =>
    intro a ptr sz a1 hinv hp0 hpT hpD h
    have hT3 := hinv.2.2.2
    have hpal := hinv.2.2.1
    rcases Classical.em (32 ≤ sz - 3) with hoob | hoob
    · rw [deallocRec, if_pos hoob] at h
      simp only [Option.some.injEq] at h
      rw [← h]
      exact hinv
    have hszlt : sz - 3 < 32 := by omega
    have hsz64 : sz % 64 = sz := Nat.mod_eq_of_lt (by omega)
    rcases hscan : removeFirstEq (ptr ^^^ 2 ^ (sz % 64)) (getBin a (sz - 3))
      with _ | rest
    · -- no buddy: the block is pushed, guarded by the failed scan
      rcases Classical.em (sz < 3) with h3 | h3
      · rw [deallocRec_succ_small gas a ptr sz hoob h3 hscan] at h
        simp at h
      · rw [deallocRec_succ_nobuddy gas a ptr sz hoob h3 hscan] at h
        simp only [Option.some.injEq] at h
        rw [hsz64] at hscan
        rw [← h]
        refine binsInv_pushBin a (sz - 3) ptr hinv hszlt ?_ hp0 ?_ (fun _ => hpT)
        · rw [show sz - 3 + 3 = sz by omega]
          exact (removeFirstEq_none _ _).mp hscan
        · intro h1
          rw [show sz - 3 + 3 = sz by omega]
          exact hpD (by omega)
    · -- buddy found: remove it and recurse on the merged block
      rw [deallocRec_succ_found gas a ptr sz rest hoob hscan] at h
      rw [hsz64] at h hscan
      obtain ⟨hbmem, hbsub⟩ := removeFirstEq_some _ _ rest hscan
      have hinvS : BinsInv (setBin a (sz - 3) rest) :=
        binsInv_setBin_sub a _ rest hinv hbsub
      rcases Nat.lt_or_ge sz 4 with hsz4 | hsz4
      · rcases Nat.lt_or_ge sz 3 with hsz3 | hsz3
        · -- classes 0-2: the merged block keeps its shape
          rcases Nat.mod_two_eq_zero_or_one (ptr / 2 ^ sz) with hbit | hbit
          · have hc := xor_two_pow_of_bit0 ptr sz hbit
            have hm : min ptr (ptr ^^^ 2 ^ sz) = ptr := by
              rw [hc]; exact Nat.min_eq_left (Nat.le_add_right _ _)
            rw [hm] at h
            exact ih _ _ _ _ hinvS hp0 hpT (fun h4 => absurd h4 (by omega)) h
          · obtain ⟨hle, hsub⟩ := xor_two_pow_of_bit1 ptr sz hbit
            have hm : min ptr (ptr ^^^ 2 ^ sz) = ptr - 2 ^ sz := by
              rw [hsub]; exact Nat.min_eq_right (Nat.sub_le _ _)
            rw [hsub] at hbmem
            rw [show sz - 3 = 0 by omega] at hbmem
            obtain ⟨hc0, hcT⟩ := hT3 _ hbmem
            rw [hm] at h
            have htlt : trailingZeros ptr < 3 := by
              by_contra hge
              have hb0 := bit0_of_succ_dvd ptr sz (dvd_trans
                (pow_dvd_pow 2 (by omega)) ((trailingZeros_spec ptr hp0).1))
              rw [hb0] at hbit
              exact absurd hbit (by omega)
            have hp16 := hpT htlt
            have h8m : (8:Nat) ∣ ptr - 2 ^ sz := by
              rcases (by omega : trailingZeros ptr = 0 ∨ trailingZeros ptr = 1 ∨
                  trailingZeros ptr = 2) with hv | hv | hv <;>
                rw [hv] at hp16 <;> interval_cases sz <;> omega
            exact ih _ _ _ _ hinvS hc0
              (fun hlt => absurd hlt (tz_ge_three _ hc0 h8m))
              (fun h4 => absurd h4 (by omega)) h
        · -- class 3: the merge lands 16-aligned
          have hsz3e : sz = 3 := by omega
          subst hsz3e
          rw [show (3:Nat) - 3 = 0 from rfl] at hbmem
          rcases Nat.mod_two_eq_zero_or_one (ptr / 2 ^ 3) with hbit | hbit
          · have hc := xor_two_pow_of_bit0 ptr 3 hbit
            rw [hc] at hbmem
            obtain ⟨hc0, hcT⟩ := hT3 _ hbmem
            have h16 : (16:Nat) ∣ ptr := by
              rcases Nat.lt_or_ge (trailingZeros ptr) 3 with htlt | htge
              · exfalso
                have hp16 := hpT htlt
                have htzc : trailingZeros (ptr + 2 ^ 3) = trailingZeros ptr := by
                  refine (trailingZeros_eq_iff _ _ (by omega)).mpr ?_
                  rcases (by omega : trailingZeros ptr = 0 ∨
                      trailingZeros ptr = 1 ∨ trailingZeros ptr = 2)
                    with hv | hv | hv <;> rw [hv] at hp16 ⊢ <;> omega
                have hcc := hcT (by rw [htzc]; omega)
                rw [htzc] at hcc
                rcases (by omega : trailingZeros ptr = 0 ∨
                    trailingZeros ptr = 1 ∨ trailingZeros ptr = 2)
                  with hv | hv | hv <;> rw [hv] at hcc hp16 <;> omega
              · have h8 := eight_dvd_of_tz_ge ptr hp0 htge
                have he3 : (2:Nat) ^ 3 = 8 := by norm_num
                omega
            have hm : min ptr (ptr ^^^ 2 ^ 3) = ptr := by
              rw [hc]; exact Nat.min_eq_left (Nat.le_add_right _ _)
            rw [hm] at h
            exact ih _ _ _ _ hinvS hp0 hpT
              (fun _ => by rw [show (2:Nat) ^ (3 + 1) = 16 by norm_num]; exact h16) h
          · obtain ⟨hle, hsub⟩ := xor_two_pow_of_bit1 ptr 3 hbit
            rw [hsub] at hbmem
            obtain ⟨hc0, hcT⟩ := hT3 _ hbmem
            have he3 : (2:Nat) ^ 3 = 8 := by norm_num
            have hp16 : ptr % 16 = 8 := by
              rcases Nat.lt_or_ge (trailingZeros ptr) 3 with htlt | htge
              · exfalso
                have hp16 := hpT htlt
                rcases (by omega : trailingZeros ptr = 0 ∨
                    trailingZeros ptr = 1 ∨ trailingZeros ptr = 2)
                  with hv | hv | hv <;> rw [hv] at hp16 <;> omega
              · have h8 := eight_dvd_of_tz_ge ptr hp0 htge
                omega
            have hm : min ptr (ptr ^^^ 2 ^ 3) = ptr - 2 ^ 3 := by
              rw [hsub]; exact Nat.min_eq_right (Nat.sub_le _ _)
            rw [hm] at h
            have h16c : (2:Nat) ^ (3 + 1) ∣ ptr - 2 ^ 3 := by
              rw [show (2:Nat) ^ (3 + 1) = 16 by norm_num, he3]
              omega
            have h8c : (8:Nat) ∣ ptr - 2 ^ 3 := by rw [he3]; omega
            exact ih _ _ _ _ hinvS hc0
              (fun hlt => absurd hlt (tz_ge_three _ hc0 h8c))
              (fun _ => h16c) h
      · -- classes 4 and up: alignment climbs with the merge
        have hpd := hpD (by omega)
        rcases Nat.mod_two_eq_zero_or_one (ptr / 2 ^ sz) with hbit | hbit
        · have hc := xor_two_pow_of_bit0 ptr sz hbit
          have hm : min ptr (ptr ^^^ 2 ^ sz) = ptr := by
            rw [hc]; exact Nat.min_eq_left (Nat.le_add_right _ _)
          rw [hm] at h
          obtain ⟨q, hq⟩ := hpd
          have hqe : q % 2 = 0 := by
            rw [hq, Nat.mul_div_cancel_left _ (pow_pos (by omega) sz)] at hbit
            exact hbit
          obtain ⟨j, hj⟩ : ∃ j, q = 2 * j := ⟨q / 2, by omega⟩
          have hdvd1 : (2:Nat) ^ (sz + 1) ∣ ptr :=
            ⟨j, by rw [hq, hj, pow_succ]; ring⟩
          have h8 : (8:Nat) ∣ ptr := dvd_trans
            (by rw [show (8:Nat) = 2 ^ 3 by norm_num]
                exact pow_dvd_pow 2 (by omega)) hdvd1
          exact ih _ _ _ _ hinvS hp0
            (fun hlt => absurd hlt (tz_ge_three _ hp0 h8))
            (fun _ => hdvd1) h
        · obtain ⟨hle, hsub⟩ := xor_two_pow_of_bit1 ptr sz hbit
          have hm : min ptr (ptr ^^^ 2 ^ sz) = ptr - 2 ^ sz := by
            rw [hsub]; exact Nat.min_eq_right (Nat.sub_le _ _)
          rw [hsub] at hbmem
          obtain ⟨hc0, hcdvd⟩ := hpal (sz - 3) (by omega) hszlt _ hbmem
          rw [hm] at h
          obtain ⟨q, hq⟩ := hpd
          have hqo : q % 2 = 1 := by
            rw [hq, Nat.mul_div_cancel_left _ (pow_pos (by omega) sz)] at hbit
            exact hbit
          obtain ⟨j, hj⟩ : ∃ j, q = 2 * j + 1 := ⟨q / 2, by omega⟩
          have hptr2 : ptr = 2 ^ (sz + 1) * j + 2 ^ sz := by
            rw [hq, hj, pow_succ]; ring
          have hdvd1 : (2:Nat) ^ (sz + 1) ∣ ptr - 2 ^ sz :=
            ⟨j, by rw [hptr2]; simp⟩
          have h8 : (8:Nat) ∣ ptr - 2 ^ sz := dvd_trans
            (by rw [show (8:Nat) = 2 ^ 3 by norm_num]
                exact pow_dvd_pow 2 (by omega)) hdvd1
          exact ih _ _ _ _ hinvS hc0
            (fun hlt => absurd hlt (tz_ge_three _ hc0 h8))
            (fun _ => hdvd1) h

/-- `alloc` preserves the state invariant, and a successful result has
the outstanding-block shape for its size. -/
lemma alloc_inv (a : Allocator) (size al : Nat) (r : Except AllocErr Nat)
    (a1 : Allocator) (hinv : BinsInv a)
    (h : Allocator.alloc a size al = (r, a1)) :
    BinsInv a1 ∧ ∀ p, r = .ok p → Apat p size := by
  rw [Allocator.alloc] at h
  rcases Classical.em (isPow2 al = true) with hal | hal
  · rw [if_neg (not_not_intro hal), if_neg (isPow2_ne_zero al hal)] at h
    rcases r with err | p
    · obtain ⟨_, ha⟩ := allocRec_error _ a (szBits size) al err a1 h
      subst ha
      exact ⟨hinv, fun p hp => absurd hp (by simp)⟩
    · obtain ⟨hb, _, _, hTp, hdvd, _, _⟩ :=
        allocRec_ok_inv al hal _ a (szBits size) p a1 hinv h
      refine ⟨hb, ?_⟩
      intro p2 hp2
      simp only [Except.ok.injEq] at hp2
      subst hp2
      exact ⟨hTp, hdvd⟩
  · rw [if_pos hal] at h
    simp only [Prod.mk.injEq] at h
    obtain ⟨hr, ha⟩ := h
    subst ha
    refine ⟨hinv, ?_⟩
    intro p hp
    rw [← hr] at hp
    exact absurd hp (by simp)

/-- `dealloc` preserves the state invariant when the freed block has the
outstanding shape for the layout it is freed with. -/
lemma dealloc_inv (a : Allocator) (p size al : Nat) (a1 : Allocator)
    (hinv : BinsInv a) (hap : Apat p size)
    (h : Allocator.dealloc a p size al = some a1) : BinsInv a1 := by
  rw [Allocator.dealloc] at h
  exact deallocRec_inv _ a p (szBits size) a1 hinv hap.1.1 hap.1.2 hap.2 h

/-- Every reachable state satisfies the full invariant, and every
outstanding allocation has its shape. -/
lemma reachable_inv (a : Allocator) (out : List (Nat × Nat))
    (h : Reachable a out) : BinsInv a ∧ ∀ q ∈ out, Apat q.1 q.2 := by
  induction h with
  | init s e a2 he hnew =>
    exact ⟨new_ok_binsInv s e he a2 hnew, by simp⟩
  | allocOk a2 out2 size al p a3 hr hs hal hstep ih =>
    obtain ⟨hb, hout⟩ := ih
    obtain ⟨hb3, hap⟩ := alloc_inv a2 size al (.ok p) a3 hb hstep
    refine ⟨hb3, ?_⟩
    intro q hq
    rcases List.mem_cons.mp hq with hq1 | hq2
    · subst hq1
      exact hap p rfl
    · exact hout q hq2
  | allocErr a2 out2 size al err a3 hr hstep ih =>
    obtain ⟨hb, hout⟩ := ih
    exact ⟨(alloc_inv a2 size al (.error err) a3 hb hstep).1, hout⟩
  | deallocOk a2 out2 p size al a3 hr hmem hstep ih =>
    obtain ⟨hb, hout⟩ := ih
    refine ⟨dealloc_inv a2 p size al a3 hb (hout (p, size) hmem) hstep, ?_⟩
    intro q hq
    exact hout q (List.mem_of_mem_erase hq)

/-- C8: in every allocator state reachable from construction by valid
allocate and deallocate calls, no two buddies of the same size class are
simultaneously free: bin `i` never holds both `x` and `x ^^^ 2^(i+3)`. -/
theorem C8_buddy_invariant (a : Allocator) (out : List (Nat × Nat))
    (h : Reachable a out) :
    ∀ i, i < 32 → ∀ x ∈ getBin a i, (x ^^^ 2 ^ (i + 3)) ∉ getBin a i :=
  fun i hi => (reachable_inv a out h).1.2.1 i hi

theorem C8_buddy_invariant_witness :
    (64 ^^^ 2 ^ (3 + 3)) ∉ getBin (pushBin ⟨List.replicate 32 []⟩ 3 64) 3 :=
  C8_buddy_invariant _ [] (Reachable.init 64 128 _ (by decide) (by decide))
    3 (by decide) 64 (by decide)

/-! ### Claim C6 (amended): LIFO round trip for classes 3 and up -/

lemma list_set_getD_self : ∀ (l : List (List Nat)) (i : Nat), i < l.length →
    l.set i (l.getD i []) = l := by
  intro l
  induction l with
  | nil =>
    intro i h
    simp at h
  | cons x xs ih =>
    intro i h
    cases i with
    | zero => simp [List.getD]
    | succ j =>
      have hj : j < xs.length := by simpa using h
      show x :: xs.set j ((x :: xs).getD (j + 1) []) = x :: xs
      rw [List.getD_cons_succ, ih j hj]

lemma setBin_setBin (a : Allocator) (i : Nat) (l1 l2 : List Nat) :
    setBin (setBin a i l1) i l2 = setBin a i l2 := by
  simp [setBin, List.set_set]

lemma setBin_getBin_self (a : Allocator) (i : Nat) (hw : WF a) (hi : i < 32) :
    setBin a i (getBin a i) = a := by
  obtain ⟨bins⟩ := a
  have hl : bins.length = 32 := hw
  simp only [setBin, getBin]
  rw [list_set_getD_self bins i (by omega)]

/-- The LIFO round trip of `_alloc` and `_dealloc`: on an invariant state,
freeing a freshly allocated block of class 3 or higher completes (the
coalescing cascade exactly unwinds the split chain), and an immediate
re-allocation with the same layout returns the identical address. -/
lemma allocRec_roundtrip (al : Nat) (halp : isPow2 al = true) : ∀ (gas : Nat)
    (a : Allocator) (sz p : Nat) (a1 : Allocator),
      BinsInv a → 3 ≤ sz →
      allocRec gas a sz al = (.ok p, a1) →
      ∃ a2, deallocRec gas a1 p sz = some a2 ∧
        (allocRec gas a2 sz al).1 = .ok p := by
  intro gas
  induction gas with
  | zero =>
    intro a sz p a1 hinv h3 h
    rw [allocRec] at h
    simp at h
  | succ gas ih =>
    intro a sz p a1 hinv h3 h
    rcases Classical.em (32 ≤ sz - 3) with hoob | hoob
    · rw [allocRec, if_pos hoob] at h
      simp at h
    have hszlt : sz - 3 < 32 := by omega
    have hsz64 : sz % 64 = sz := Nat.mod_eq_of_lt (by omega)
    have hwa : WF a := hinv.1
    rcases hscan : removeFirstAligned al (getBin a (sz - 3)) with _ | pr
    · -- the entry frame split a larger block
      rcases hrec : allocRec gas a (sz + 1) al with ⟨r, arec⟩
      rcases r with err | p2
      · rw [allocRec, if_neg hoob, hscan, hrec] at h
        simp at h
      rw [allocRec_succ_miss gas a sz al p2 arec hoob hscan hrec] at h
      simp only [Prod.mk.injEq, Except.ok.injEq] at h
      obtain ⟨hpp, ha1⟩ := h
      subst p2
      obtain ⟨hbrec, hp0, halg, _, hdvd1, _, hTouch⟩ :=
        allocRec_ok_inv al halp gas a (sz + 1) p arec hinv hrec
      have hwrec : WF arec := hbrec.1
      have hdp : (2:Nat) ^ (sz + 1) ∣ p := hdvd1 (by omega)
      have hbin1 : getBin a1 (sz - 3) = (p + 2 ^ sz) :: getBin arec (sz - 3) := by
        rw [← ha1]
        exact getBin_pushBin_same arec _ _ hwrec hszlt
      have hbit : p / 2 ^ sz % 2 = 0 := bit0_of_succ_dvd p sz hdp
      have hc : p ^^^ 2 ^ sz = p + 2 ^ sz := xor_two_pow_of_bit0 p sz hbit
      have hfound : removeFirstEq (p ^^^ 2 ^ (sz % 64)) (getBin a1 (sz - 3)) =
          some (getBin arec (sz - 3)) := by
        rw [hsz64, hc, hbin1]
        exact removeFirstEq_cons_self _ _
      have hstepd := deallocRec_succ_found gas a1 p sz
        (getBin arec (sz - 3)) hoob hfound
      have hS : setBin a1 (sz - 3) (getBin arec (sz - 3)) = arec := by
        rw [← ha1, pushBin, setBin_setBin, setBin_getBin_self arec _ hwrec hszlt]
      have hmin : min p (p ^^^ 2 ^ (sz % 64)) = p := by
        rw [hsz64, hc]
        exact Nat.min_eq_left (Nat.le_add_right _ _)
      rw [hS, hmin] at hstepd
      obtain ⟨a2, hd2, hre2⟩ := ih a (sz + 1) p arec hinv (by omega) hrec
      refine ⟨a2, by rw [hstepd]; exact hd2, ?_⟩
      have htch : getBin a2 (sz - 3) = getBin a (sz - 3) := by
        rw [deallocRec_touch gas arec p (sz + 1) a2 _ hd2 (by omega)]
        exact hTouch (sz - 3) (by omega)
      rcases hre3 : allocRec gas a2 (sz + 1) al with ⟨r3, a3⟩
      rcases r3 with err | p3
      · rw [hre3] at hre2
        simp at hre2
      · rw [hre3] at hre2
        simp only [Except.ok.injEq] at hre2
        subst p3
        rw [allocRec_succ_miss gas a2 sz al p a3 hoob
          (by rw [htch]; exact hscan) hre3]
    · -- the entry frame popped directly: the block returns to its head
      rcases pr with ⟨addr, rest⟩
      rw [allocRec_succ_pop gas a sz al addr rest hoob hscan] at h
      simp only [Prod.mk.injEq, Except.ok.injEq] at h
      obtain ⟨hpp, ha1⟩ := h
      subst addr
      subst ha1
      obtain ⟨hmem, haligned, hsub⟩ := removeFirstAligned_some al _ p rest hscan
      have hnb : (p ^^^ 2 ^ sz) ∉ rest := by
        intro hmem2
        have h1 := hinv.2.1 (sz - 3) hszlt p hmem
        rw [show sz - 3 + 3 = sz by omega] at h1
        exact h1 (hsub _ hmem2)
      have hscan2 : removeFirstEq (p ^^^ 2 ^ (sz % 64))
          (getBin (setBin a (sz - 3) rest) (sz - 3)) = none := by
        rw [hsz64, getBin_setBin_same a _ _ hwa hszlt]
        exact (removeFirstEq_none _ _).mpr hnb
      have hd := deallocRec_succ_nobuddy gas (setBin a (sz - 3) rest) p sz
        hoob (by omega) hscan2
      refine ⟨pushBin (setBin a (sz - 3) rest) (sz - 3) p, hd, ?_⟩
      have hb2 : getBin (pushBin (setBin a (sz - 3) rest) (sz - 3) p)
          (sz - 3) = p :: rest := by
        rw [getBin_pushBin_same _ _ _ (WF_setBin _ _ _ hwa) hszlt,
          getBin_setBin_same a _ _ hwa hszlt]
      rw [allocRec_succ_pop gas _ sz al p rest hoob (by
        rw [hb2]
        exact removeFirstAligned_cons_aligned _ _ _ haligned)]

/-- C6 amended: on every reachable state, for every layout whose size
class is at least 3 (size above 4) and power-of-two alignment, a
successful allocate followed by a deallocate with the same arguments
leaves the bins in a state where re-allocating the same layout returns
the identical address (LIFO reuse).  Layouts of class below 3 instead
run into the wrapped-index abort of the deallocator (claim C3). -/
theorem C6_round_trip_amended (a : Allocator) (out : List (Nat × Nat))
    (hr : Reachable a out) (size al p : Nat) (a1 : Allocator)
    (hsz : 3 ≤ szBits size) (hal : isPow2 al = true)
    (h : Allocator.alloc a size al = (.ok p, a1)) :
    ∃ a2, Allocator.dealloc a1 p size al = some a2 ∧
      (Allocator.alloc a2 size al).1 = .ok p := by
  have hb := (reachable_inv a out hr).1
  rw [Allocator.alloc, if_neg (not_not_intro hal),
    if_neg (isPow2_ne_zero al hal)] at h
  obtain ⟨a2, hd, hre⟩ := allocRec_roundtrip al hal _ a (szBits size) p a1 hb hsz h
  refine ⟨a2, ?_, ?_⟩
  · rw [Allocator.dealloc]
    exact hd
  · rw [Allocator.alloc, if_neg (not_not_intro hal),
      if_neg (isPow2_ne_zero al hal)]
    exact hre

theorem C6_round_trip_amended_witness :
    3 ≤ szBits 8 ∧ isPow2 8 = true ∧
      ∃ a2, Allocator.dealloc (setBin (pushBin ⟨List.replicate 32 []⟩ 0 8) 0 [])
          8 8 8 = some a2 ∧
        (Allocator.alloc a2 8 8).1 = .ok 8 :=
  ⟨by decide, by decide,
    C6_round_trip_amended (pushBin ⟨List.replicate 32 []⟩ 0 8) []
      (Reachable.init 8 16 _ (by decide) (by decide)) 8 8 8
      (setBin (pushBin ⟨List.replicate 32 []⟩ 0 8) 0 [])
      (by decide) (by decide) (by decide)⟩

theorem C4_unsupported_amended_witness :
    ((Allocator.alloc ⟨List.replicate 32 []⟩ 16 3).1 = .error .unsupported ↔
      isPow2 3 = false) ∧
    (isPow2 3 = false → (Allocator.alloc ⟨List.replicate 32 []⟩ 16 3).2 =
      ⟨List.replicate 32 []⟩) ∧
    Allocator.alloc ⟨List.replicate 32 []⟩ 16 3 =
      (.error .unsupported, ⟨List.replicate 32 []⟩) ∧
    Allocator.alloc ⟨List.replicate 32 []⟩ 16 0 =
      (.error .unsupported, ⟨List.replicate 32 []⟩) :=
  C4_unsupported_amended ⟨List.replicate 32 []⟩ 16 3

theorem C9_depth_amended_witness :
    allocRecDepth (35 - szBits 1) ⟨List.replicate 32 []⟩ (szBits 1) 1 ≤ 36 ∧
    deallocRecDepth (35 - szBits 1) ⟨List.replicate 32 []⟩ 0 (szBits 1) ≤ 36 :=
  C9_depth_amended ⟨List.replicate 32 []⟩ 1 1 0
